import Mathlib

/-!
PCBoard loader of ansilove (`src/loaders/pcboard.c`)

A shallow embedding of the decode loop of `pcboard()` and theorems about it.

Modelling conventions
* `inputFileBuffer` is an `unsigned char *`; the C code indexes it without any
  bounds check, so the embedding takes the memory behind the pointer as a total
  function `Nat → Nat` (the byte found at each offset, reduced `% 256`) together
  with `inputFileSize`, the loop bound.  Offsets `>= inputFileSize` are whatever
  lies behind the input; theorems quantify over it.
* `int32_t` variables that can become negative (`column`) are `Int`; `loop`
  only grows from `0` and is a `Nat`.  Inside the loop the variables change by
  `++` and `+= 8` only and stay below `2^31` for inputs of up to `2^28` bytes;
  wrap-around there is not modelled.  The arithmetic behind the loop (the
  increments of lines 143-144 and the products of line 147) is reduced to the
  `int32_t` range with `wrap32`.
* `pcboard_buffer` with its fill count `structIndex` is a `List pcbChar`;
  `structIndex` is its length and the `realloc` + store at `structIndex` is an
  append at the end.
-/

namespace PCBoard

/-- One record of `struct pcbChar`. -/
structure pcbChar where
  column : Int
  row : Int
  background : Int
  foreground : Int
  current_character : Int
deriving DecidableEq

/-- The local variables of `pcboard()` that live across iterations of the decode loop. -/
structure State where
  loop : Nat
  column : Int
  row : Int
  columnMax : Int
  rowMax : Int
  background : Int
  foreground : Int
  pcboard_buffer : List pcbChar
deriving DecidableEq

/-- The read `inputFileBuffer[i]` of an `unsigned char`, widened to `int32_t`. -/
def readByte (inputFileBuffer : Nat → Nat) (i : Nat) : Int :=
  ((inputFileBuffer i % 256 : Nat) : Int)

/-- The values of the locals when the loop is entered (lines 29-40). -/
def initialState : State :=
  { loop := 0, column := 0, row := 0, columnMax := 0, rowMax := 0,
    background := 0, foreground := 7, pcboard_buffer := [] }

/-- The column overflow check at the head of the loop body (lines 47-51):
`if (column == 80) { row++; column = 0; }`. -/
def overflowCheck (s : State) : State :=
  if s.column = 80 then { s with row := s.row + 1, column := 0 } else s

/-- One pass through the body of `while (loop < inputFileSize)` (lines 44-141).
The boolean is `true` when the pass left the loop through `break`. -/
def body (inputFileBuffer : Nat → Nat) (s0 : State) : State × Bool :=
  let current_character := readByte inputFileBuffer s0.loop
  let next_character := readByte inputFileBuffer (s0.loop + 1)
  -- if (column == 80)
  let s1 := overflowCheck s0
  -- CR + LF
  let s2 := if current_character = 13 ∧ next_character = 10 then
      { s1 with row := s1.row + 1, column := 0, loop := s1.loop + 1 } else s1
  -- LF
  let s3 := if current_character = 10 then { s2 with row := s2.row + 1, column := 0 } else s2
  -- Tab
  let s4 := if current_character = 9 then { s3 with column := s3.column + 8 } else s3
  -- Sub
  if current_character = 26 then (s4, true)
  else
    -- PCB sequence
    let s5 :=
      if current_character = 64 ∧ next_character = 88 then
        { s4 with background := readByte inputFileBuffer (s4.loop + 2),
                  foreground := readByte inputFileBuffer (s4.loop + 3),
                  loop := s4.loop + 3 }
      else if current_character = 64 ∧ next_character = 67 ∧
          readByte inputFileBuffer (s4.loop + 2) = 76 ∧
          readByte inputFileBuffer (s4.loop + 3) = 83 then
        { s4 with column := 0, row := 0, columnMax := 0, rowMax := 0, loop := s4.loop + 4 }
      else if current_character = 64 ∧ next_character = 80 ∧
          readByte inputFileBuffer (s4.loop + 2) = 79 ∧
          readByte inputFileBuffer (s4.loop + 3) = 83 ∧
          readByte inputFileBuffer (s4.loop + 4) = 58 then
        if readByte inputFileBuffer (s4.loop + 6) = 64 then
          { s4 with column := (readByte inputFileBuffer (s4.loop + 5) - 48) - 1,
                    loop := s4.loop + 5 }
        else
          { s4 with column := (10 * (readByte inputFileBuffer (s4.loop + 5) - 48)
                                + readByte inputFileBuffer (s4.loop + 6) - 48) - 1,
                    loop := s4.loop + 6 }
      else if current_character ≠ 10 ∧ current_character ≠ 13 ∧ current_character ≠ 9 then
        let columnMax := if s4.column > s4.columnMax then s4.column else s4.columnMax
        let rowMax := if s4.row > s4.rowMax then s4.row else s4.rowMax
        { s4 with columnMax := columnMax, rowMax := rowMax,
                  pcboard_buffer := s4.pcboard_buffer ++
                    [{ column := s4.column, row := s4.row, background := s4.background,
                       foreground := s4.foreground, current_character := current_character }],
                  column := s4.column + 1 }
      else s4
    ({ s5 with loop := s5.loop + 1 }, false)

/-- The loop `while (loop < inputFileSize) { ... }` run for at most `fuel` passes.
`none` means the fuel ran out before the loop was left. -/
def run (inputFileBuffer : Nat → Nat) (inputFileSize : Nat) : Nat → State → Option State
  | 0, s => if s.loop < inputFileSize then none else some s
  | fuel + 1, s =>
    if s.loop < inputFileSize then
      match body inputFileBuffer s with
      | (s', true) => some s'
      | (s', false) => run inputFileBuffer inputFileSize fuel s'
    else some s

/-- The decode loop of `pcboard()` from its initial state (lines 29-142).  Every pass
advances `loop`, so `inputFileSize` passes are enough. -/
def pcboardScan (inputFileBuffer : Nat → Nat) (inputFileSize : Nat) : Option State :=
  run inputFileBuffer inputFileSize inputFileSize initialState

/-- The offsets at which one pass through the loop body reads `inputFileBuffer`, in
evaluation order (`&&` evaluates its right operand only when the left one holds). -/
def bodyReads (inputFileBuffer : Nat → Nat) (s : State) : List Nat :=
  let current_character := readByte inputFileBuffer s.loop
  let next_character := readByte inputFileBuffer (s.loop + 1)
  let loop := if current_character = 13 ∧ next_character = 10 then s.loop + 1 else s.loop
  [s.loop, s.loop + 1] ++
  (if current_character = 26 then []
   else if current_character = 64 ∧ next_character = 88 then [loop + 2, loop + 3]
   else if current_character = 64 ∧ next_character = 67 then
     (loop + 2) :: (if readByte inputFileBuffer (loop + 2) = 76 then [loop + 3] else [])
   else if current_character = 64 ∧ next_character = 80 then
     (loop + 2) ::
       (if readByte inputFileBuffer (loop + 2) = 79 then
          (loop + 3) ::
            (if readByte inputFileBuffer (loop + 3) = 83 then
               (loop + 4) ::
                 (if readByte inputFileBuffer (loop + 4) = 58 then
                    (loop + 6) ::
                      (if readByte inputFileBuffer (loop + 6) = 64 then [loop + 5]
                       else [loop + 5, loop + 6])
                  else [])
             else [])
        else [])
   else [])

/-- All offsets read by the decode loop within `fuel` passes from `s`, in order. -/
def runReads (inputFileBuffer : Nat → Nat) (inputFileSize : Nat) : Nat → State → List Nat
  | 0, _ => []
  | fuel + 1, s =>
    if s.loop < inputFileSize then
      bodyReads inputFileBuffer s ++
        (match body inputFileBuffer s with
         | (_, true) => []
         | (s', false) => runReads inputFileBuffer inputFileSize fuel s')
    else []

/-- The offsets read by the decode loop of `pcboard()` from its initial state. -/
def pcboardReads (inputFileBuffer : Nat → Nat) (inputFileSize : Nat) : List Nat :=
  runReads inputFileBuffer inputFileSize inputFileSize initialState

/-- The values of `loop` at the head of each pass executed within `fuel` passes from `s`:
the positions the scan interprets as a current byte. -/
def scanPositions (inputFileBuffer : Nat → Nat) (inputFileSize : Nat) : Nat → State → List Nat
  | 0, _ => []
  | fuel + 1, s =>
    if s.loop < inputFileSize then
      s.loop ::
        (match body inputFileBuffer s with
         | (_, true) => []
         | (s', false) => scanPositions inputFileBuffer inputFileSize fuel s')
    else []

/-- A buffer holding the bytes of `l`, followed by zero bytes (`main` stores a NUL
behind the file contents). -/
def bufferOf (l : List Nat) : Nat → Nat := fun i => l.getD i 0

/-- The bytes that no rule of the loop treats specially: not Tab, LF, CR, Sub or `@`. -/
def plainByte (b : Int) : Prop := b ≠ 9 ∧ b ≠ 10 ∧ b ≠ 13 ∧ b ≠ 26 ∧ b ≠ 64

instance (b : Int) : Decidable (plainByte b) := by unfold plainByte; infer_instance

/-- The record expected for a plain byte at offset `k` of a text without control bytes. -/
def plainCell (inputFileBuffer : Nat → Nat) (k : Nat) : pcbChar :=
  { column := ((k % 80 : Nat) : Int), row := ((k / 80 : Nat) : Int),
    background := 0, foreground := 7, current_character := readByte inputFileBuffer k }

/-- Closed form of the locals after `m` plain bytes have been decoded from the start. -/
def plainState (inputFileBuffer : Nat → Nat) (m : Nat) : State :=
  { loop := m,
    column := (((if m = 0 then 0 else (m - 1) % 80 + 1) : Nat) : Int),
    row := (((m - 1) / 80 : Nat) : Int),
    columnMax := ((min (m - 1) 79 : Nat) : Int),
    rowMax := (((m - 1) / 80 : Nat) : Int),
    background := 0, foreground := 7,
    pcboard_buffer := (List.range m).map (plainCell inputFileBuffer) }

/-- The first half of the loop body (lines 47-71) as a function of the two bytes read at
the head of the pass: overflow check, CR+LF, LF and Tab.  Used to state `body_eq`. -/
def controlChars (current_character next_character : Int) (s0 : State) : State :=
  let s1 := overflowCheck s0
  let s2 := if current_character = 13 ∧ next_character = 10 then
      { s1 with row := s1.row + 1, column := 0, loop := s1.loop + 1 } else s1
  let s3 := if current_character = 10 then { s2 with row := s2.row + 1, column := 0 } else s2
  if current_character = 9 then { s3 with column := s3.column + 8 } else s3

/-- The `if / else if` chain of the loop body (lines 79-140) as a function of the two
bytes read at the head of the pass.  Used to state `body_eq`. -/
def pcbSequence (inputFileBuffer : Nat → Nat) (current_character next_character : Int)
    (s4 : State) : State :=
  if current_character = 64 ∧ next_character = 88 then
    { s4 with background := readByte inputFileBuffer (s4.loop + 2),
              foreground := readByte inputFileBuffer (s4.loop + 3),
              loop := s4.loop + 3 }
  else if current_character = 64 ∧ next_character = 67 ∧
      readByte inputFileBuffer (s4.loop + 2) = 76 ∧
      readByte inputFileBuffer (s4.loop + 3) = 83 then
    { s4 with column := 0, row := 0, columnMax := 0, rowMax := 0, loop := s4.loop + 4 }
  else if current_character = 64 ∧ next_character = 80 ∧
      readByte inputFileBuffer (s4.loop + 2) = 79 ∧
      readByte inputFileBuffer (s4.loop + 3) = 83 ∧
      readByte inputFileBuffer (s4.loop + 4) = 58 then
    if readByte inputFileBuffer (s4.loop + 6) = 64 then
      { s4 with column := (readByte inputFileBuffer (s4.loop + 5) - 48) - 1,
                loop := s4.loop + 5 }
    else
      { s4 with column := (10 * (readByte inputFileBuffer (s4.loop + 5) - 48)
                            + readByte inputFileBuffer (s4.loop + 6) - 48) - 1,
                loop := s4.loop + 6 }
  else if current_character ≠ 10 ∧ current_character ≠ 13 ∧ current_character ≠ 9 then
    let columnMax := if s4.column > s4.columnMax then s4.column else s4.columnMax
    let rowMax := if s4.row > s4.rowMax then s4.row else s4.rowMax
    { s4 with columnMax := columnMax, rowMax := rowMax,
              pcboard_buffer := s4.pcboard_buffer ++
                [{ column := s4.column, row := s4.row, background := s4.background,
                   foreground := s4.foreground, current_character := current_character }],
              column := s4.column + 1 }
  else s4

/-- The decode loop run alongside a bookkeeping value `g` that each pass updates with
`upd` from the state the pass starts in.  The bookkeeping never feeds back into the
loop: the states visited are those of `run`. -/
def runGhost {G : Type} (upd : State → G → G) (inputFileBuffer : Nat → Nat)
    (inputFileSize : Nat) : Nat → State → G → G
  | 0, _, g => g
  | fuel + 1, s, g =>
    if s.loop < inputFileSize then
      match body inputFileBuffer s with
      | (_, true) => upd s g
      | (s', false) => runGhost upd inputFileBuffer inputFileSize fuel s' (upd s g)
    else g

/-- The number of `row++` statements the pass starting in `s` executes in the first half
of the body: overflow wrap (line 49), CR+LF (line 55), LF (line 63). -/
def rowAdvances (inputFileBuffer : Nat → Nat) (s : State) : Nat :=
  (if s.column = 80 then 1 else 0) +
  (if readByte inputFileBuffer s.loop = 13 ∧ readByte inputFileBuffer (s.loop + 1) = 10
    then 1 else 0) +
  (if readByte inputFileBuffer s.loop = 10 then 1 else 0)

/-- The pass starting in `s` takes the erase-display branch (lines 87-98). -/
def clearsScreen (inputFileBuffer : Nat → Nat) (s : State) : Prop :=
  readByte inputFileBuffer s.loop = 64 ∧ readByte inputFileBuffer (s.loop + 1) = 67 ∧
    readByte inputFileBuffer (s.loop + 2) = 76 ∧ readByte inputFileBuffer (s.loop + 3) = 83

instance (inputFileBuffer : Nat → Nat) (s : State) :
    Decidable (clearsScreen inputFileBuffer s) := by
  unfold clearsScreen; infer_instance

/-- The pass starting in `s` appends a record to the buffer (lines 114-140). -/
def emitsCell (inputFileBuffer : Nat → Nat) (s : State) : Prop :=
  (body inputFileBuffer s).1.pcboard_buffer.length = s.pcboard_buffer.length + 1

instance (inputFileBuffer : Nat → Nat) (s : State) :
    Decidable (emitsCell inputFileBuffer s) := by
  unfold emitsCell; infer_instance

/-- Counters of row-advancing events: all of them, those since the most recent
erase-display, and the value the second counter had when the most recent record since
then was appended (0 when there is none). -/
structure RowEvents where
  total : Nat
  sinceClear : Nat
  atLastCell : Nat
deriving DecidableEq

/-- Update of the row-event counters by the pass starting in `s`. -/
def countRowEvents (inputFileBuffer : Nat → Nat) (s : State) (g : RowEvents) : RowEvents :=
  let total := g.total + rowAdvances inputFileBuffer s
  let sinceClear := g.sinceClear + rowAdvances inputFileBuffer s
  if clearsScreen inputFileBuffer s then
    { total := total, sinceClear := 0, atLastCell := 0 }
  else if emitsCell inputFileBuffer s then
    { total := total, sinceClear := sinceClear, atLastCell := sinceClear }
  else
    { total := total, sinceClear := sinceClear, atLastCell := g.atLastCell }

/-- The row-event counters of the whole decode loop. -/
def pcboardRowEvents (inputFileBuffer : Nat → Nat) (inputFileSize : Nat) : RowEvents :=
  runGhost (countRowEvents inputFileBuffer) inputFileBuffer inputFileSize inputFileSize
    initialState { total := 0, sinceClear := 0, atLastCell := 0 }

/-- Update of the clear mark by the pass starting in `s`: the number of records in the
buffer when the most recent erase-display was performed (0 when there was none). -/
def markClear (inputFileBuffer : Nat → Nat) (s : State) (mark : Nat) : Nat :=
  if clearsScreen inputFileBuffer s then s.pcboard_buffer.length else mark

/-- The clear mark of the whole decode loop: the records at indices from the mark on are
those appended after the most recent erase-display. -/
def pcboardClearMark (inputFileBuffer : Nat → Nat) (inputFileSize : Nat) : Nat :=
  runGhost (markClear inputFileBuffer) inputFileBuffer inputFileSize inputFileSize
    initialState 0

/-- The largest value of `f` over the records `l`, taken as 0 when there is no record
or the largest value is below 0. -/
def extentOf (f : pcbChar → Int) (l : List pcbChar) : Int :=
  l.foldl (fun m r => max m (f r)) 0

/-- The `int32_t` that holds the result of an arithmetic operation whose exact value is
`x`: `x` reduced to `-2^31 .. 2^31 - 1` in two's complement (overflow is undefined in C;
this is what the compiled code computes). -/
def wrap32 (x : Int) : Int := (x + 2147483648) % 4294967296 - 2147483648

/-- The arguments of `gdImageCreate` (lines 143-147): after the loop `columnMax` and
`rowMax` are incremented and the canvas is `columns * bits` wide and
`rowMax * fontData.height` high, with `columns = 80`; increment and products are
`int32_t` operations.  The font height comes from `alSelectFont` and is a parameter
here. -/
def canvasSize (inputFileBuffer : Nat → Nat) (inputFileSize : Nat) (bits : Int)
    (fontHeight : Int) : Option (Int × Int) :=
  (pcboardScan inputFileBuffer inputFileSize).map (fun s =>
    let columns : Int := 80
    let rowMax := wrap32 (s.rowMax + 1)
    (wrap32 (columns * bits), wrap32 (rowMax * fontHeight)))

/-- A buffer holding `m` LF bytes followed by the byte `b` (and `b` behind it). -/
def lineFeedsThen (m : Nat) (b : Nat) : Nat → Nat := fun i => if i < m then 10 else b

/-- Closed form of the locals after `m` LF bytes have been decoded from the start. -/
def lineFeedState (m : Nat) : State :=
  { loop := m, column := 0, row := (m : Int), columnMax := 0, rowMax := 0,
    background := 0, foreground := 7, pcboard_buffer := [] }

/-- The palette array `int32_t colors[71]` after lines 156-171, as the RGB triple passed
to `gdImageColorAllocate` for each index that is assigned; `none` for an index that is
never assigned or lies outside the array. -/
def colors (i : Int) : Option (Nat × Nat × Nat) :=
  if i = 48 then some (0, 0, 0)
  else if i = 49 then some (0, 0, 170)
  else if i = 50 then some (0, 170, 0)
  else if i = 51 then some (0, 170, 170)
  else if i = 52 then some (170, 0, 0)
  else if i = 53 then some (170, 0, 170)
  else if i = 54 then some (170, 85, 0)
  else if i = 55 then some (170, 170, 170)
  else if i = 56 then some (85, 85, 85)
  else if i = 57 then some (85, 85, 255)
  else if i = 65 then some (85, 255, 85)
  else if i = 66 then some (85, 255, 255)
  else if i = 67 then some (255, 85, 85)
  else if i = 68 then some (255, 85, 255)
  else if i = 69 then some (255, 255, 85)
  else if i = 70 then some (255, 255, 255)
  else none

/-- The arguments of one call of `drawchar` that come from the record buffer
(lines 180-187). -/
structure drawcharCall where
  column : Int
  row : Int
  background : Option (Nat × Nat × Nat)
  foreground : Option (Nat × Nat × Nat)
  character : Int
deriving DecidableEq

/-- The render loop `for (loop = 0; loop < pcbBufferItems; loop++)` (lines 174-188) as the
list of its `drawchar` calls; `pcbBufferItems` is `structIndex`, the number of records. -/
def renderCalls (pcboard_buffer : List pcbChar) : List drawcharCall :=
  let pcbBufferItems := pcboard_buffer.length
  (List.range pcbBufferItems).filterMap (fun loop =>
    (pcboard_buffer.get? loop).map (fun r =>
      { column := r.column, row := r.row,
        background := colors r.background, foreground := colors r.foreground,
        character := r.current_character }))

/-- The size `main` hands to the loader for a file with a SAUCE record (lines 313-316 of
`main.c`): `inputFileSize -= 129 - (comments > 0 ? 5 + 64 * comments : 0)` on a
`size_t` (64 bits); `comments` is the comment-line count of the record. -/
def sauceAdjustedSize (inputFileSize : Nat) (comments : Nat) : Nat :=
  Int.toNat (((inputFileSize : Int) -
    (129 - (if comments > 0 then 5 + 64 * (comments : Int) else 0))) % 2 ^ 64)

/-! Theorems about the decode loop. -/

theorem run_exit (buf : Nat → Nat) (N fuel : Nat) (s : State) (h : ¬ s.loop < N) :
    run buf N fuel s = some s := by
  cases fuel <;> simp [run, h]

theorem run_pass (buf : Nat → Nat) (N fuel : Nat) (s s' : State) (h : s.loop < N)
    (hb : body buf s = (s', false)) : run buf N (fuel + 1) s = run buf N fuel s' := by
  simp [run, h, hb]

theorem run_break (buf : Nat → Nat) (N fuel : Nat) (s s' : State) (h : s.loop < N)
    (hb : body buf s = (s', true)) : run buf N (fuel + 1) s = some s' := by
  simp [run, h, hb]

theorem overflowCheck_loop (s : State) : (overflowCheck s).loop = s.loop := by
  unfold overflowCheck; split <;> rfl

theorem overflowCheck_colours (s : State) :
    (overflowCheck s).background = s.background ∧ (overflowCheck s).foreground = s.foreground := by
  unfold overflowCheck; split <;> exact ⟨rfl, rfl⟩

theorem overflowCheck_frame (s : State) :
    (overflowCheck s).columnMax = s.columnMax ∧ (overflowCheck s).rowMax = s.rowMax ∧
      (overflowCheck s).pcboard_buffer = s.pcboard_buffer := by
  unfold overflowCheck; split <;> exact ⟨rfl, rfl, rfl⟩

/-- A pass over a plain byte appends one record at the cursor left by the overflow check. -/
theorem body_printable (buf : Nat → Nat) (s : State) (h : plainByte (readByte buf s.loop)) :
    body buf s =
      ({ overflowCheck s with
          columnMax := max (overflowCheck s).column s.columnMax,
          rowMax := max (overflowCheck s).row s.rowMax,
          pcboard_buffer := s.pcboard_buffer ++
            [{ column := (overflowCheck s).column, row := (overflowCheck s).row,
               background := s.background, foreground := s.foreground,
               current_character := readByte buf s.loop }],
          column := (overflowCheck s).column + 1,
          loop := s.loop + 1 }, false) := by
  obtain ⟨h9, h10, h13, h26, h64⟩ := h
  obtain ⟨hb, hf⟩ := overflowCheck_colours s
  obtain ⟨hc, hr, hp⟩ := overflowCheck_frame s
  have hl := overflowCheck_loop s
  simp only [body, h9, h10, h13, h26, h64, false_and, if_false, ne_eq, not_false_eq_true,
    and_self, if_true, hb, hf, hc, hr, hp, hl, Prod.mk.injEq, and_true, State.mk.injEq, true_and]
  refine ⟨?_, ?_⟩
  · split <;> omega
  · split <;> omega

theorem body_plainState (buf : Nat → Nat) (m : Nat) (h : plainByte (readByte buf m)) :
    body buf (plainState buf m) = (plainState buf (m + 1), false) := by
  rw [body_printable buf _ h]
  have hw : overflowCheck (plainState buf m) =
      { plainState buf m with column := ((m % 80 : Nat) : Int), row := ((m / 80 : Nat) : Int) } := by
    unfold overflowCheck
    rcases Nat.eq_zero_or_pos m with hm | hm
    · subst hm
      simp [plainState]
    · have hm0 : m ≠ 0 := by omega
      split
      · rename_i h80
        simp only [plainState, hm0, if_false, State.mk.injEq, true_and, and_true] at h80 ⊢
        omega
      · rename_i h80
        simp only [plainState, hm0, if_false, State.mk.injEq, true_and, and_true] at h80 ⊢
        omega
  rw [hw]
  simp only [plainState, Prod.mk.injEq, State.mk.injEq, and_true, true_and, List.range_succ,
    List.map_append, List.map_cons, List.map_nil, plainCell, Nat.add_sub_cancel,
    Nat.succ_ne_zero, if_false]
  refine ⟨?_, ?_, ?_⟩ <;> omega

/-- Decoding a stretch of plain bytes from offset `k` to offset `m` uses `m - k` passes. -/
theorem run_plain (buf : Nat → Nat) (N m : Nat) (hm : m ≤ N) :
    ∀ (d k fuel : Nat), k + d = m → (∀ i, k ≤ i → i < m → plainByte (readByte buf i)) →
      run buf N (fuel + d) (plainState buf k) = run buf N fuel (plainState buf m) := by
  intro d
  induction d with
  | zero =>
    intro k fuel hk _
    have : k = m := by omega
    subst this
    rfl
  | succ d ih =>
    intro k fuel hk hp
    have hlt : (plainState buf k).loop < N := by
      show k < N
      omega
    rw [← Nat.add_assoc, run_pass buf N (fuel + d) _ _ hlt
      (body_plainState buf k (hp k (Nat.le_refl k) (by omega)))]
    exact ih (k + 1) fuel (by omega) (fun i h1 h2 => hp i (by omega) h2)

/-- C1. Plain-text decoding: when none of the `inputFileSize` input bytes is 9, 10, 13, 26
or 64, the decode loop ends with exactly one record per byte, in input order, the record
of byte `k` having `column = k mod 80`, `row = k div 80`, `background = 0`,
`foreground = 7` and `current_character = inputFileBuffer[k]`. -/
theorem plain_text_decoding (inputFileBuffer : Nat → Nat) (inputFileSize : Nat)
    (hplain : ∀ k, k < inputFileSize → plainByte (readByte inputFileBuffer k)) :
    ∃ s, pcboardScan inputFileBuffer inputFileSize = some s ∧
      s.pcboard_buffer.length = inputFileSize ∧
      s.pcboard_buffer = (List.range inputFileSize).map (fun k =>
        { column := ((k % 80 : Nat) : Int), row := ((k / 80 : Nat) : Int),
          background := 0, foreground := 7,
          current_character := readByte inputFileBuffer k }) := by
  refine ⟨plainState inputFileBuffer inputFileSize, ?_, ?_, ?_⟩
  · have h := run_plain inputFileBuffer inputFileSize inputFileSize (Nat.le_refl _)
      inputFileSize 0 0 (by omega) (fun i _ hi => hplain i hi)
    rw [Nat.zero_add] at h
    have h0 : plainState inputFileBuffer 0 = initialState := rfl
    rw [h0] at h
    unfold pcboardScan
    rw [h]
    exact run_exit _ _ _ _ (by simp [plainState])
  · simp [plainState]
  · rfl

/-- Instance of C1 on the two bytes `[65, 66]`. -/
theorem plain_text_decoding_witness :
    (∀ k, k < 2 → plainByte (readByte (bufferOf [65, 66]) k)) ∧
    ∃ s, pcboardScan (bufferOf [65, 66]) 2 = some s ∧
      s.pcboard_buffer.length = 2 ∧
      s.pcboard_buffer = (List.range 2).map (fun k =>
        { column := ((k % 80 : Nat) : Int), row := ((k / 80 : Nat) : Int),
          background := 0, foreground := 7,
          current_character := readByte (bufferOf [65, 66]) k }) :=
  ⟨by intro k hk; interval_cases k <;> decide,
   plain_text_decoding (bufferOf [65, 66]) 2 (by intro k hk; interval_cases k <;> decide)⟩

/-- The loop body is its two halves in sequence, with the `break` in between. -/
theorem body_eq (buf : Nat → Nat) (s : State) :
    body buf s =
      if readByte buf s.loop = 26 then
        (controlChars (readByte buf s.loop) (readByte buf (s.loop + 1)) s, true)
      else
        ({ pcbSequence buf (readByte buf s.loop) (readByte buf (s.loop + 1))
              (controlChars (readByte buf s.loop) (readByte buf (s.loop + 1)) s) with
            loop := (pcbSequence buf (readByte buf s.loop) (readByte buf (s.loop + 1))
              (controlChars (readByte buf s.loop) (readByte buf (s.loop + 1)) s)).loop + 1 },
          false) := rfl

theorem controlChars_loop (c n : Int) (s : State) :
    (controlChars c n s).loop = if c = 13 ∧ n = 10 then s.loop + 1 else s.loop := by
  have hl := overflowCheck_loop s
  unfold controlChars
  simp only []
  split_ifs <;> simp_all

theorem controlChars_frame (c n : Int) (s : State) :
    (controlChars c n s).background = s.background ∧
      (controlChars c n s).foreground = s.foreground ∧
      (controlChars c n s).columnMax = s.columnMax ∧
      (controlChars c n s).rowMax = s.rowMax ∧
      (controlChars c n s).pcboard_buffer = s.pcboard_buffer := by
  obtain ⟨hb, hf⟩ := overflowCheck_colours s
  obtain ⟨hc, hr, hp⟩ := overflowCheck_frame s
  unfold controlChars
  simp only []
  split_ifs <;> simp_all

/-- Without CR, LF or Tab as the current byte only the overflow check has run. -/
theorem controlChars_other (c n : Int) (s : State) (h13 : c ≠ 13) (h10 : c ≠ 10)
    (h9 : c ≠ 9) : controlChars c n s = overflowCheck s := by
  simp [controlChars, h13, h10, h9]

theorem pcbSequence_loop (buf : Nat → Nat) (c n : Int) (s : State) :
    s.loop ≤ (pcbSequence buf c n s).loop ∧ (pcbSequence buf c n s).loop ≤ s.loop + 6 := by
  unfold pcbSequence
  simp only []
  split_ifs <;> simp

/-- A current byte other than `@` that is CR, LF or Tab leaves the chain without effect. -/
theorem pcbSequence_control (buf : Nat → Nat) (c n : Int) (s : State)
    (h : c = 13 ∨ c = 10 ∨ c = 9) : pcbSequence buf c n s = s := by
  rcases h with h | h | h <;> subst h <;> simp [pcbSequence]

/-- Every pass that does not leave through `break` advances `loop` by 1 to 7. -/
theorem body_loop_bounds (buf : Nat → Nat) (s : State) (h : (body buf s).2 = false) :
    s.loop + 1 ≤ (body buf s).1.loop ∧ (body buf s).1.loop ≤ s.loop + 7 := by
  rw [body_eq] at h ⊢
  split_ifs at h ⊢ with h26
  have hc := controlChars_loop (readByte buf s.loop) (readByte buf (s.loop + 1)) s
  by_cases hcr : readByte buf s.loop = 13 ∧ readByte buf (s.loop + 1) = 10
  · rw [pcbSequence_control buf _ _ _ (Or.inl hcr.1)]
    rw [if_pos hcr] at hc
    simp only [hc]
    omega
  · rw [if_neg hcr] at hc
    have hp := pcbSequence_loop buf (readByte buf s.loop) (readByte buf (s.loop + 1))
      (controlChars (readByte buf s.loop) (readByte buf (s.loop + 1)) s)
    rw [hc] at hp
    simp only []
    omega

/-- The loop body depends on the buffer only through the offsets listed by `bodyReads`. -/
theorem body_congr (buf buf' : Nat → Nat) (s : State)
    (h : ∀ i ∈ bodyReads buf s, readByte buf' i = readByte buf i) :
    body buf' s = body buf s := by
  have h0 := h s.loop (by simp [bodyReads])
  have h1 := h (s.loop + 1) (by simp [bodyReads])
  rw [body_eq, body_eq, h0, h1]
  by_cases h26 : readByte buf s.loop = 26
  · simp [h26]
  · simp only [h26, if_false]
    suffices hs : ∀ t : State, t.loop = s.loop →
        pcbSequence buf' (readByte buf s.loop) (readByte buf (s.loop + 1)) t =
          pcbSequence buf (readByte buf s.loop) (readByte buf (s.loop + 1)) t by
      by_cases hc : readByte buf s.loop = 64
      · rw [hs _ (by rw [controlChars_loop]; simp [hc])]
      · simp [pcbSequence, hc]
    intro t ht
    by_cases hc : readByte buf s.loop = 64
    · by_cases hx : readByte buf (s.loop + 1) = 88
      · have h2 := h (s.loop + 2) (by simp [bodyReads, hc, hx])
        have h3 := h (s.loop + 3) (by simp [bodyReads, hc, hx])
        simp [pcbSequence, hc, hx, ht, h2, h3]
      · by_cases hC : readByte buf (s.loop + 1) = 67
        · have h2 := h (s.loop + 2) (by simp [bodyReads, hc, hC])
          by_cases hL : readByte buf (s.loop + 2) = 76
          · have h3 := h (s.loop + 3) (by simp [bodyReads, hc, hC, hL])
            simp [pcbSequence, hc, hC, ht, h2, h3, hL]
          · simp [pcbSequence, hc, hC, ht, h2, hL]
        · by_cases hP : readByte buf (s.loop + 1) = 80
          · have h2 := h (s.loop + 2) (by simp [bodyReads, hc, hP])
            by_cases hO : readByte buf (s.loop + 2) = 79
            · have h3 := h (s.loop + 3) (by simp [bodyReads, hc, hP, hO])
              by_cases hS : readByte buf (s.loop + 3) = 83
              · have h4 := h (s.loop + 4) (by simp [bodyReads, hc, hP, hO, hS])
                by_cases hcol : readByte buf (s.loop + 4) = 58
                · have h6 := h (s.loop + 6) (by simp [bodyReads, hc, hP, hO, hS, hcol])
                  have h5 := h (s.loop + 5) (by
                    by_cases hat : readByte buf (s.loop + 6) = 64 <;>
                      simp [bodyReads, hc, hP, hO, hS, hcol, hat])
                  simp [pcbSequence, hc, hP, ht, h2, h3, h4, h5, h6, hO, hS, hcol]
                · simp [pcbSequence, hc, hP, ht, h2, h3, h4, hO, hS, hcol]
              · simp [pcbSequence, hc, hP, ht, h2, h3, hO, hS]
            · simp [pcbSequence, hc, hP, ht, h2, hO]
          · simp [pcbSequence, hc, hx, hC, hP]
    · simp [pcbSequence, hc]

/-- A pass that starts before a Sub byte at offset `k` and does not jump over it reads
the buffer only at offsets up to `k`. -/
theorem bodyReads_le (buf : Nat → Nat) (s : State) (k : Nat) (hlt : s.loop < k)
    (h26 : readByte buf k = 26) (hnext : (body buf s).1.loop ≤ k) :
    ∀ i ∈ bodyReads buf s, i ≤ k := by
  have hne : ∀ j, readByte buf j ≠ 26 → j ≠ k := fun j hj e => hj (e ▸ h26)
  have hl := overflowCheck_loop s
  by_cases hsub : readByte buf s.loop = 26
  · intro i hi
    simp [bodyReads, hsub] at hi
    omega
  by_cases hc : readByte buf s.loop = 64
  · rw [body_eq, if_neg hsub, controlChars_other _ _ _ (by rw [hc]; decide)
      (by rw [hc]; decide) (by rw [hc]; decide)] at hnext
    by_cases hx : readByte buf (s.loop + 1) = 88
    · simp [pcbSequence, hc, hx, hl] at hnext
      intro i hi
      simp [bodyReads, hc, hx] at hi
      omega
    · by_cases hC : readByte buf (s.loop + 1) = 67
      · have k1 := hne (s.loop + 1) (by rw [hC]; decide)
        by_cases hL : readByte buf (s.loop + 2) = 76
        · have k2 := hne (s.loop + 2) (by rw [hL]; decide)
          intro i hi
          simp [bodyReads, hc, hC, hL] at hi
          omega
        · intro i hi
          simp [bodyReads, hc, hC, hL] at hi
          omega
      · by_cases hP : readByte buf (s.loop + 1) = 80
        · have k1 := hne (s.loop + 1) (by rw [hP]; decide)
          by_cases hO : readByte buf (s.loop + 2) = 79
          · have k2 := hne (s.loop + 2) (by rw [hO]; decide)
            by_cases hS : readByte buf (s.loop + 3) = 83
            · have k3 := hne (s.loop + 3) (by rw [hS]; decide)
              by_cases hcol : readByte buf (s.loop + 4) = 58
              · by_cases hat : readByte buf (s.loop + 6) = 64
                · simp [pcbSequence, hc, hP, hO, hS, hcol, hat, hl] at hnext
                  intro i hi
                  simp [bodyReads, hc, hP, hO, hS, hcol, hat] at hi
                  omega
                · simp [pcbSequence, hc, hP, hO, hS, hcol, hat, hl] at hnext
                  intro i hi
                  simp [bodyReads, hc, hP, hO, hS, hcol, hat] at hi
                  omega
              · intro i hi
                simp [bodyReads, hc, hP, hO, hS, hcol] at hi
                omega
            · intro i hi
              simp [bodyReads, hc, hP, hO, hS] at hi
              omega
          · intro i hi
            simp [bodyReads, hc, hP, hO] at hi
            omega
        · intro i hi
          simp [bodyReads, hc, hx, hC, hP, hsub] at hi
          omega
  · intro i hi
    simp [bodyReads, hc, hsub] at hi
    omega

theorem scanPositions_ge (buf : Nat → Nat) (N : Nat) :
    ∀ (fuel : Nat) (s : State) (p : Nat), p ∈ scanPositions buf N fuel s → s.loop ≤ p := by
  intro fuel
  induction fuel with
  | zero => intro s p hp; simp [scanPositions] at hp
  | succ fuel ih =>
    intro s p hp
    unfold scanPositions at hp
    split_ifs at hp with hlt
    · rcases List.mem_cons.1 hp with hp | hp
      · omega
      · rcases hb : body buf s with ⟨s', b⟩
        rw [hb] at hp
        cases b with
        | true => simp at hp
        | false =>
          have h1 := (body_loop_bounds buf s (by rw [hb])).1
          rw [hb] at h1
          have h2 := ih s' p hp
          simp only [] at h1
          omega
    · simp at hp

/-- C2 (evaluation at the failing input). When the input is the two bytes `@X`
(`inputFileSize = 2`), whatever lies behind them, the decode loop reads the buffer at the
offsets 0, 1, 2 and 3: the operand reads at offsets 2 and 3 are not below
`inputFileSize`. -/
theorem lookahead_reads_past_end (inputFileBuffer : Nat → Nat)
    (h0 : readByte inputFileBuffer 0 = 64) (h1 : readByte inputFileBuffer 1 = 88) :
    pcboardReads inputFileBuffer 2 = [0, 1, 2, 3] ∧
      ¬ (∀ i ∈ pcboardReads inputFileBuffer 2, i < 2) := by
  have h : pcboardReads inputFileBuffer 2 = [0, 1, 2, 3] := by
    simp [pcboardReads, runReads, bodyReads, initialState, h0, h1, body_eq, pcbSequence,
      controlChars, overflowCheck]
  rw [h]
  exact ⟨rfl, by decide⟩

/-- Instance of C2 on the file `@X`. -/
theorem lookahead_reads_past_end_witness :
    readByte (bufferOf [64, 88]) 0 = 64 ∧ readByte (bufferOf [64, 88]) 1 = 88 ∧
      pcboardReads (bufferOf [64, 88]) 2 = [0, 1, 2, 3] ∧
      ¬ (∀ i ∈ pcboardReads (bufferOf [64, 88]) 2, i < 2) :=
  ⟨by decide, by decide, lookahead_reads_past_end (bufferOf [64, 88]) (by decide) (by decide)⟩

/-- C3 (evaluation at the failing input). When the input is the two bytes `@X`
(`inputFileSize = 2`), the set-colours sequence is matched all the same: the loop ends
with no record in the buffer (the `@` is not emitted) and with `background` and
`foreground` taken from the two bytes behind the input. -/
theorem truncated_set_colours_is_matched (inputFileBuffer : Nat → Nat)
    (h0 : readByte inputFileBuffer 0 = 64) (h1 : readByte inputFileBuffer 1 = 88) :
    pcboardScan inputFileBuffer 2 =
      some { initialState with
        background := readByte inputFileBuffer 2,
        foreground := readByte inputFileBuffer 3,
        loop := 4 } := by
  simp [pcboardScan, run, initialState, h0, h1, body_eq, pcbSequence, controlChars,
    overflowCheck]

/-- Instance of C3 on the file `@X` followed in memory by the bytes 1 and 2. -/
theorem truncated_set_colours_is_matched_witness :
    readByte (bufferOf [64, 88, 1, 2]) 0 = 64 ∧ readByte (bufferOf [64, 88, 1, 2]) 1 = 88 ∧
      pcboardScan (bufferOf [64, 88, 1, 2]) 2 =
        some { loop := 4, column := 0, row := 0, columnMax := 0, rowMax := 0,
               background := 1, foreground := 2, pcboard_buffer := [] } :=
  ⟨by decide, by decide,
   truncated_set_colours_is_matched (bufferOf [64, 88, 1, 2]) (by decide) (by decide)⟩

/-- A pass whose current byte is Sub performs the overflow check and leaves the loop. -/
theorem body_sub (buf : Nat → Nat) (s : State) (h : readByte buf s.loop = 26) :
    body buf s = (overflowCheck s, true) := by
  rw [body_eq, if_pos h, h, controlChars_other _ _ _ (by decide) (by decide) (by decide)]

theorem sentinel_aux (buf buf' : Nat → Nat) (N N' k : Nat) (h26 : readByte buf k = 26)
    (hk' : k < N') (hagree : ∀ i, i ≤ k → readByte buf' i = readByte buf i) :
    ∀ (fuel : Nat) (s : State) (fuel' : Nat), k ∈ scanPositions buf N fuel s →
      N' - s.loop ≤ fuel' →
      ∃ t, run buf N fuel s = some t ∧ run buf' N' fuel' s = some t ∧ t.loop = k ∧
        ∀ p ∈ scanPositions buf N fuel s, p ≤ k := by
  intro fuel
  induction fuel with
  | zero => intro s fuel' hmem; simp [scanPositions] at hmem
  | succ fuel ih =>
    intro s fuel' hmem hfuel
    have hle := scanPositions_ge buf N _ s k hmem
    unfold scanPositions at hmem ⊢
    split_ifs at hmem ⊢ with hlt
    swap
    · simp at hmem
    obtain ⟨f, rfl⟩ : ∃ f, fuel' = f + 1 := ⟨fuel' - 1, by omega⟩
    by_cases hk : s.loop = k
    · have hb := body_sub buf s (by rw [hk]; exact h26)
      have hb' := body_sub buf' s (by rw [hk, hagree k (Nat.le_refl k)]; exact h26)
      refine ⟨overflowCheck s, run_break buf N fuel s _ hlt hb,
        run_break buf' N' f s _ (by omega) hb', by rw [overflowCheck_loop]; exact hk, ?_⟩
      intro p hp
      rw [hb] at hp
      simp at hp
      omega
    · generalize hb : body buf s = r at hmem ⊢
      rcases r with ⟨s', b⟩
      rcases List.mem_cons.1 hmem with h | hmem'
      · exact absurd h.symm hk
      cases b with
      | true => simp at hmem'
      | false =>
        simp only [] at hmem' ⊢
        have hs' := scanPositions_ge buf N _ s' k hmem'
        have hadv := (body_loop_bounds buf s (by rw [hb])).1
        rw [hb] at hadv
        simp only [] at hadv
        have hb' : body buf' s = (s', false) := by
          rw [body_congr buf buf' s, hb]
          intro i hi
          exact hagree i (bodyReads_le buf s k (by omega) h26 (by rw [hb]; exact hs') i hi)
        obtain ⟨t, h1, h2, h3, h4⟩ := ih s' f hmem' (by omega)
        refine ⟨t, ?_, ?_, h3, ?_⟩
        · rw [run_pass buf N fuel s s' hlt hb]; exact h1
        · rw [run_pass buf' N' f s s' (by omega) hb']; exact h2
        · intro p hp
          rcases List.mem_cons.1 hp with h | h
          · omega
          · exact h4 p h

/-- C4 (the claim as written fails). In `@X` followed by the bytes 26, 7 and one more
byte, the byte 26 at offset 2 is the background operand of the set-colours sequence:
the scan does not stop there, the last byte gets a record, and changing that last byte
(an offset after the Sub byte) changes the records. -/
theorem sentinel_as_operand_counterexample :
    readByte (bufferOf [64, 88, 26, 7, 65]) 2 = 26 ∧
    (∀ i, i ≤ 2 →
      readByte (bufferOf [64, 88, 26, 7, 66]) i = readByte (bufferOf [64, 88, 26, 7, 65]) i) ∧
    (pcboardScan (bufferOf [64, 88, 26, 7, 65]) 5).map (fun s => s.pcboard_buffer) =
      some [{ column := 0, row := 0, background := 26, foreground := 7,
              current_character := 65 }] ∧
    (pcboardScan (bufferOf [64, 88, 26, 7, 66]) 5).map (fun s => s.pcboard_buffer) =
      some [{ column := 0, row := 0, background := 26, foreground := 7,
              current_character := 66 }] := by
  refine ⟨by decide, ?_, by decide, by decide⟩
  intro i hi
  interval_cases i <;> decide

/-- C4 (amended). When byte 26 stands at an offset `k` that the scan reaches as the
current byte of a pass, the loop ends there (`loop = k`), no later offset is ever the
current byte of a pass, and the final state (records, `columnMax`, `rowMax` and all
other locals) is the same for every buffer that agrees on the offsets `0 .. k` and every
size above `k`; in particular it is that of the input cut after offset `k`. -/
theorem sentinel_truncation (inputFileBuffer inputFileBuffer' : Nat → Nat)
    (inputFileSize inputFileSize' k : Nat)
    (hreach : k ∈ scanPositions inputFileBuffer inputFileSize inputFileSize initialState)
    (h26 : readByte inputFileBuffer k = 26) (hk' : k < inputFileSize')
    (hagree : ∀ i, i ≤ k → readByte inputFileBuffer' i = readByte inputFileBuffer i) :
    ∃ s, pcboardScan inputFileBuffer inputFileSize = some s ∧
      pcboardScan inputFileBuffer' inputFileSize' = some s ∧
      pcboardScan inputFileBuffer (k + 1) = some s ∧
      s.loop = k ∧
      ∀ p ∈ scanPositions inputFileBuffer inputFileSize inputFileSize initialState,
        p ≤ k := by
  obtain ⟨t, h1, h2, h3, h4⟩ := sentinel_aux inputFileBuffer inputFileBuffer' inputFileSize
    inputFileSize' k h26 hk' hagree inputFileSize initialState inputFileSize' hreach
    (by omega)
  obtain ⟨t', h1', h2', _, _⟩ := sentinel_aux inputFileBuffer inputFileBuffer inputFileSize
    (k + 1) k h26 (by omega) (fun _ _ => rfl) inputFileSize initialState (k + 1) hreach
    (by omega)
  have ht : t' = t := by
    rw [h1] at h1'
    exact (Option.some.inj h1').symm
  subst ht
  exact ⟨t', h1, h2, h2', h3, h4⟩

/-- Instance of C4 (amended): `A`, Sub, then other bytes. -/
theorem sentinel_truncation_witness :
    (1 ∈ scanPositions (bufferOf [65, 26, 66]) 3 3 initialState) ∧
    readByte (bufferOf [65, 26, 66]) 1 = 26 ∧ 1 < 4 ∧
    (∀ i, i ≤ 1 →
      readByte (bufferOf [65, 26, 67, 68]) i = readByte (bufferOf [65, 26, 66]) i) ∧
    ∃ s, pcboardScan (bufferOf [65, 26, 66]) 3 = some s ∧
      pcboardScan (bufferOf [65, 26, 67, 68]) 4 = some s ∧
      pcboardScan (bufferOf [65, 26, 66]) (1 + 1) = some s ∧
      s.loop = 1 ∧
      ∀ p ∈ scanPositions (bufferOf [65, 26, 66]) 3 3 initialState, p ≤ 1 :=
  ⟨by decide, by decide, by decide, by intro i hi; interval_cases i <;> decide,
   sentinel_truncation (bufferOf [65, 26, 66]) (bufferOf [65, 26, 67, 68]) 3 4 1
     (by decide) (by decide) (by decide) (by intro i hi; interval_cases i <;> decide)⟩

/-- A pass over CR followed by LF: overflow check, one row advance, two bytes consumed. -/
theorem body_crlf (buf : Nat → Nat) (s : State) (hc : readByte buf s.loop = 13)
    (hn : readByte buf (s.loop + 1) = 10) :
    body buf s =
      ({ overflowCheck s with
          row := (overflowCheck s).row + 1, column := 0, loop := s.loop + 2 }, false) := by
  have hl := overflowCheck_loop s
  rw [body_eq, if_neg (by rw [hc]; decide), pcbSequence_control buf _ _ _ (Or.inl hc)]
  simp [controlChars, hc, hn, hl]

theorem scanPositions_plain (buf : Nat → Nat) (N m : Nat) (hm : m ≤ N) :
    ∀ (d k fuel : Nat), k + d = m → (∀ i, k ≤ i → i < m → plainByte (readByte buf i)) →
      scanPositions buf N (fuel + d) (plainState buf k) =
        List.range' k d ++ scanPositions buf N fuel (plainState buf m) := by
  intro d
  induction d with
  | zero =>
    intro k fuel hk _
    have : k = m := by omega
    subst this
    rfl
  | succ d ih =>
    intro k fuel hk hp
    have hlt : (plainState buf k).loop < N := by
      show k < N
      omega
    rw [← Nat.add_assoc, scanPositions, if_pos hlt,
      body_plainState buf k (hp k (Nat.le_refl k) (by omega))]
    simp only []
    rw [ih (k + 1) fuel (by omega) (fun i h1 h2 => hp i (by omega) h2)]
    rfl

/-- C5. CR+LF is a single row advance: when fewer than 80 plain bytes are followed by
CR, LF and a plain byte `b`, the pass over the CR+LF pair appends no record, advances the
row once (from 0 to 1), resets the column and moves `loop` by two; the passes of the whole
scan start at the offsets `0 .. n-1`, `n` (the CR) and `n + 2` (the byte `b`), and the
record of `b` is at column 0, row 1. -/
theorem crlf_single_row_advance (inputFileBuffer : Nat → Nat) (n : Nat) (hn : n < 80)
    (hplain : ∀ k, k < n → plainByte (readByte inputFileBuffer k))
    (hcr : readByte inputFileBuffer n = 13) (hlf : readByte inputFileBuffer (n + 1) = 10)
    (hb : plainByte (readByte inputFileBuffer (n + 2))) :
    body inputFileBuffer (plainState inputFileBuffer n) =
      ({ plainState inputFileBuffer n with row := 1, column := 0, loop := n + 2 }, false) ∧
    scanPositions inputFileBuffer (n + 3) (n + 3) initialState = List.range n ++ [n, n + 2] ∧
    ∃ s, pcboardScan inputFileBuffer (n + 3) = some s ∧
      s.pcboard_buffer =
        (List.range n).map (fun k =>
          { column := (k : Int), row := 0, background := 0, foreground := 7,
            current_character := readByte inputFileBuffer k }) ++
        [{ column := 0, row := 1, background := 0, foreground := 7,
           current_character := readByte inputFileBuffer (n + 2) }] := by
  have hcol : (plainState inputFileBuffer n).column = (n : Int) := by
    simp only [plainState]
    split <;> omega
  have hrow : (plainState inputFileBuffer n).row = 0 := by
    simp only [plainState]
    omega
  have hov : overflowCheck (plainState inputFileBuffer n) = plainState inputFileBuffer n := by
    unfold overflowCheck
    rw [if_neg (by rw [hcol]; omega)]
  have hstep1 : body inputFileBuffer (plainState inputFileBuffer n) =
      ({ plainState inputFileBuffer n with row := 1, column := 0, loop := n + 2 }, false) := by
    rw [body_crlf inputFileBuffer _ hcr hlf, hov, hrow]
    rfl
  have hstep2 : body inputFileBuffer
      { plainState inputFileBuffer n with row := 1, column := 0, loop := n + 2 } =
      ({ plainState inputFileBuffer n with
          row := 1, column := 0 + 1, loop := n + 2 + 1,
          columnMax := max 0 (plainState inputFileBuffer n).columnMax,
          rowMax := max 1 (plainState inputFileBuffer n).rowMax,
          pcboard_buffer := (plainState inputFileBuffer n).pcboard_buffer ++
            [{ column := 0, row := 1, background := 0, foreground := 7,
               current_character := readByte inputFileBuffer (n + 2) }] }, false) := by
    rw [body_printable inputFileBuffer _ hb]
    rfl
  have h0 : plainState inputFileBuffer 0 = initialState := rfl
  refine ⟨hstep1, ?_, ?_⟩
  · have h := scanPositions_plain inputFileBuffer (n + 3) n (by omega) n 0 3 (by omega)
      (fun i _ hi => hplain i hi)
    rw [h0, Nat.add_comm 3 n] at h
    rw [h, List.range_eq_range']
    congr 1
    have hlt : (plainState inputFileBuffer n).loop < n + 3 := by
      show n < n + 3
      omega
    rw [scanPositions, if_pos hlt, hstep1]
    simp only []
    rw [scanPositions, if_pos (by show n + 2 < n + 3; omega), hstep2]
    simp only []
    rw [scanPositions, if_neg (by show ¬ (n + 2 + 1 < n + 3); omega)]
    rfl
  · have h := run_plain inputFileBuffer (n + 3) n (by omega) n 0 3 (by omega)
      (fun i _ hi => hplain i hi)
    rw [h0, Nat.add_comm 3 n] at h
    unfold pcboardScan
    rw [h, run_pass inputFileBuffer (n + 3) 2 _ _ (by show n < n + 3; omega) hstep1,
      run_pass inputFileBuffer (n + 3) 1 _ _ (by show n + 2 < n + 3; omega) hstep2,
      run_exit _ _ _ _ (by show ¬ (n + 2 + 1 < n + 3); omega)]
    refine ⟨_, rfl, ?_⟩
    simp only [plainState]
    congr 1
    apply List.map_congr_left
    intro k hk
    have hk' : k < n := List.mem_range.1 hk
    simp only [plainCell, pcbChar.mk.injEq, and_true, true_and]
    constructor <;> omega

/-- Instance of C5 on the three bytes CR, LF, `A`. -/
theorem crlf_single_row_advance_witness :
    0 < 80 ∧ (∀ k, k < 0 → plainByte (readByte (bufferOf [13, 10, 65]) k)) ∧
    readByte (bufferOf [13, 10, 65]) 0 = 13 ∧ readByte (bufferOf [13, 10, 65]) (0 + 1) = 10 ∧
    plainByte (readByte (bufferOf [13, 10, 65]) (0 + 2)) ∧
    body (bufferOf [13, 10, 65]) (plainState (bufferOf [13, 10, 65]) 0) =
      ({ plainState (bufferOf [13, 10, 65]) 0 with row := 1, column := 0, loop := 0 + 2 },
        false) ∧
    scanPositions (bufferOf [13, 10, 65]) (0 + 3) (0 + 3) initialState =
      List.range 0 ++ [0, 0 + 2] ∧
    ∃ s, pcboardScan (bufferOf [13, 10, 65]) (0 + 3) = some s ∧
      s.pcboard_buffer =
        (List.range 0).map (fun k =>
          { column := (k : Int), row := 0, background := 0, foreground := 7,
            current_character := readByte (bufferOf [13, 10, 65]) k }) ++
        [{ column := 0, row := 1, background := 0, foreground := 7,
           current_character := readByte (bufferOf [13, 10, 65]) (0 + 2) }] :=
  ⟨by decide, by intro k hk; omega, by decide, by decide, by decide,
   crlf_single_row_advance (bufferOf [13, 10, 65]) 0 (by decide) (by intro k hk; omega)
     (by decide) (by decide) (by decide)⟩

/-- A pass over `@X`: overflow check, the two operand bytes become the colours, four
bytes consumed. -/
theorem body_set_colours (buf : Nat → Nat) (s : State) (h0 : readByte buf s.loop = 64)
    (h1 : readByte buf (s.loop + 1) = 88) :
    body buf s =
      ({ overflowCheck s with
          background := readByte buf (s.loop + 2),
          foreground := readByte buf (s.loop + 3),
          loop := s.loop + 4 }, false) := by
  have hl := overflowCheck_loop s
  rw [body_eq, if_neg (by rw [h0]; decide), h0, h1,
    controlChars_other _ _ _ (by decide) (by decide) (by decide)]
  simp [pcbSequence, hl]

/-- Outside the set-colours branch the chain keeps the colours, and what it appends to
the buffer carries them. -/
theorem pcbSequence_colours (buf : Nat → Nat) (c n : Int) (s : State)
    (h : ¬ (c = 64 ∧ n = 88)) :
    (pcbSequence buf c n s).background = s.background ∧
      (pcbSequence buf c n s).foreground = s.foreground ∧
      ∃ new, (pcbSequence buf c n s).pcboard_buffer = s.pcboard_buffer ++ new ∧
        ∀ r ∈ new, r.background = s.background ∧ r.foreground = s.foreground := by
  unfold pcbSequence
  rw [if_neg h]
  simp only []
  split_ifs <;>
    first
    | exact ⟨rfl, rfl, [_], rfl, by simp⟩
    | exact ⟨rfl, rfl, [], (List.append_nil _).symm, by simp⟩

theorem body_colours (buf : Nat → Nat) (s : State)
    (h : ¬ (readByte buf s.loop = 64 ∧ readByte buf (s.loop + 1) = 88)) :
    (body buf s).1.background = s.background ∧
      (body buf s).1.foreground = s.foreground ∧
      ∃ new, (body buf s).1.pcboard_buffer = s.pcboard_buffer ++ new ∧
        ∀ r ∈ new, r.background = s.background ∧ r.foreground = s.foreground := by
  obtain ⟨hb, hf, _, _, hp⟩ :=
    controlChars_frame (readByte buf s.loop) (readByte buf (s.loop + 1)) s
  rw [body_eq]
  split_ifs
  · exact ⟨hb, hf, [], by simp [hp], by simp⟩
  · obtain ⟨h1, h2, new, h3, h4⟩ := pcbSequence_colours buf _ _
      (controlChars (readByte buf s.loop) (readByte buf (s.loop + 1)) s) h
    refine ⟨by simp only [h1, hb], by simp only [h2, hf], new, by simp only [h3, hp], ?_⟩
    intro r hr
    rw [← hb, ← hf]
    exact h4 r hr

/-- As long as no `@X` starts at an offset the loop can still reach, the colours stay
what they are and every record appended carries them; the loop returns. -/
theorem run_colours (buf : Nat → Nat) (N : Nat) (x y : Int) :
    ∀ (fuel : Nat) (t : State), N - t.loop ≤ fuel → t.background = x → t.foreground = y →
      (∀ i, t.loop ≤ i → i < N → ¬ (readByte buf i = 64 ∧ readByte buf (i + 1) = 88)) →
      ∃ t', run buf N fuel t = some t' ∧ t'.background = x ∧ t'.foreground = y ∧
        ∃ new, t'.pcboard_buffer = t.pcboard_buffer ++ new ∧
          ∀ r ∈ new, r.background = x ∧ r.foreground = y := by
  intro fuel
  induction fuel with
  | zero =>
    intro t hf hx hy _
    exact ⟨t, run_exit buf N 0 t (by omega), hx, hy, [], by simp, by simp⟩
  | succ fuel ih =>
    intro t hf hx hy hno
    by_cases hlt : t.loop < N
    · obtain ⟨h1, h2, new, h3, h4⟩ := body_colours buf t (hno t.loop (Nat.le_refl _) hlt)
      generalize hb : body buf t = r at h1 h2 h3
      rcases r with ⟨s', b⟩
      simp only [] at h1 h2 h3
      cases b with
      | true =>
        refine ⟨s', run_break buf N fuel t s' hlt hb, by rw [h1, hx], by rw [h2, hy],
          new, h3, ?_⟩
        intro r hr
        rw [← hx, ← hy]
        exact h4 r hr
      | false =>
        have hadv := (body_loop_bounds buf t (by rw [hb])).1
        rw [hb] at hadv
        simp only [] at hadv
        obtain ⟨t', g1, g2, g3, new', g4, g5⟩ := ih s' (by omega) (by rw [h1, hx])
          (by rw [h2, hy]) (fun i hi hiN => hno i (by omega) hiN)
        refine ⟨t', by rw [run_pass buf N fuel t s' hlt hb]; exact g1, g2, g3,
          new ++ new', by rw [g4, h3, List.append_assoc], ?_⟩
        intro r hr
        rcases List.mem_append.1 hr with hr | hr
        · rw [← hx, ← hy]
          exact h4 r hr
        · exact g5 r hr
    · exact ⟨t, run_exit buf N _ t hlt, hx, hy, [], by simp, by simp⟩

/-- C6. Set colours: a pass whose current and next bytes are `@` and `X` sets
`background` and `foreground` to the raw values of the two bytes that follow, appends no
record, leaves the buffer and the extent as they are, changes the cursor only through the
overflow check at the head of the pass and moves `loop` by exactly 4.  Afterwards, for
every loop bound below which no further `@X` starts, the loop returns with these
colours and every record appended since carries them. -/
theorem set_colours (inputFileBuffer : Nat → Nat) (s : State)
    (h0 : readByte inputFileBuffer s.loop = 64)
    (h1 : readByte inputFileBuffer (s.loop + 1) = 88) :
    body inputFileBuffer s =
      ({ overflowCheck s with
          background := readByte inputFileBuffer (s.loop + 2),
          foreground := readByte inputFileBuffer (s.loop + 3),
          loop := s.loop + 4 }, false) ∧
    (body inputFileBuffer s).1.pcboard_buffer = s.pcboard_buffer ∧
    (body inputFileBuffer s).1.columnMax = s.columnMax ∧
    (body inputFileBuffer s).1.rowMax = s.rowMax ∧
    (body inputFileBuffer s).1.column = (overflowCheck s).column ∧
    (body inputFileBuffer s).1.row = (overflowCheck s).row ∧
    ∀ (inputFileSize fuel : Nat), inputFileSize - (s.loop + 4) ≤ fuel →
      (∀ i, s.loop + 4 ≤ i → i < inputFileSize →
        ¬ (readByte inputFileBuffer i = 64 ∧ readByte inputFileBuffer (i + 1) = 88)) →
      ∃ t, run inputFileBuffer inputFileSize fuel (body inputFileBuffer s).1 = some t ∧
        t.background = readByte inputFileBuffer (s.loop + 2) ∧
        t.foreground = readByte inputFileBuffer (s.loop + 3) ∧
        ∃ new, t.pcboard_buffer = s.pcboard_buffer ++ new ∧
          ∀ r ∈ new, r.background = readByte inputFileBuffer (s.loop + 2) ∧
            r.foreground = readByte inputFileBuffer (s.loop + 3) := by
  obtain ⟨hc, hr, hp⟩ := overflowCheck_frame s
  have hb := body_set_colours inputFileBuffer s h0 h1
  refine ⟨hb, by rw [hb]; exact hp, by rw [hb]; exact hc, by rw [hb]; exact hr,
    by rw [hb], by rw [hb], ?_⟩
  intro N fuel hfuel hno
  rw [hb]
  obtain ⟨t, g1, g2, g3, new, g4, g5⟩ := run_colours inputFileBuffer N
    (readByte inputFileBuffer (s.loop + 2)) (readByte inputFileBuffer (s.loop + 3)) fuel
    { overflowCheck s with
        background := readByte inputFileBuffer (s.loop + 2),
        foreground := readByte inputFileBuffer (s.loop + 3),
        loop := s.loop + 4 } hfuel rfl rfl hno
  exact ⟨t, g1, g2, g3, new, by rw [g4]; exact congrArg (· ++ new) hp, g5⟩

/-- Instance of C6: `@X` with operands 1 and 2 at the start of the input, then `A`. -/
theorem set_colours_witness :
    readByte (bufferOf [64, 88, 1, 2, 65]) initialState.loop = 64 ∧
    readByte (bufferOf [64, 88, 1, 2, 65]) (initialState.loop + 1) = 88 ∧
    body (bufferOf [64, 88, 1, 2, 65]) initialState =
      ({ overflowCheck initialState with
          background := readByte (bufferOf [64, 88, 1, 2, 65]) (initialState.loop + 2),
          foreground := readByte (bufferOf [64, 88, 1, 2, 65]) (initialState.loop + 3),
          loop := initialState.loop + 4 }, false) :=
  ⟨by decide, by decide,
   (set_colours (bufferOf [64, 88, 1, 2, 65]) initialState (by decide) (by decide)).1⟩

/-- A pass over `@` that starts no sequence (the next byte is none of `X`, `C`, `P`)
appends the `@` like a plain byte. -/
theorem body_at_sign (buf : Nat → Nat) (s : State) (h0 : readByte buf s.loop = 64)
    (hx : readByte buf (s.loop + 1) ≠ 88) (hc : readByte buf (s.loop + 1) ≠ 67)
    (hp : readByte buf (s.loop + 1) ≠ 80) :
    body buf s =
      ({ overflowCheck s with
          columnMax := max (overflowCheck s).column s.columnMax,
          rowMax := max (overflowCheck s).row s.rowMax,
          pcboard_buffer := s.pcboard_buffer ++
            [{ column := (overflowCheck s).column, row := (overflowCheck s).row,
               background := s.background, foreground := s.foreground,
               current_character := 64 }],
          column := (overflowCheck s).column + 1,
          loop := s.loop + 1 }, false) := by
  obtain ⟨hb, hf⟩ := overflowCheck_colours s
  obtain ⟨hcm, hrm, hpb⟩ := overflowCheck_frame s
  have hl := overflowCheck_loop s
  rw [body_eq, if_neg (by rw [h0]; decide), h0,
    controlChars_other _ _ _ (by decide) (by decide) (by decide)]
  simp only [pcbSequence, hx, hc, hp, false_and, and_false, if_false, ne_eq,
    not_false_eq_true, and_self, if_true, hb, hf, hcm, hrm, hpb, hl, Prod.mk.injEq, and_true,
    State.mk.injEq, true_and]
  simp only [(by decide : ¬ ((64 : Int) = 10)), (by decide : ¬ ((64 : Int) = 13)),
    (by decide : ¬ ((64 : Int) = 9)), not_false_eq_true, and_self, if_true, State.mk.injEq,
    true_and, and_true]
  refine ⟨?_, ?_⟩
  · split <;> omega
  · split <;> omega

/-- A pass over `@POS:`: overflow check, then the column is set from one or two bytes. -/
theorem body_set_cursor (buf : Nat → Nat) (s : State) (h0 : readByte buf s.loop = 64)
    (h1 : readByte buf (s.loop + 1) = 80) (h2 : readByte buf (s.loop + 2) = 79)
    (h3 : readByte buf (s.loop + 3) = 83) (h4 : readByte buf (s.loop + 4) = 58) :
    body buf s =
      if readByte buf (s.loop + 6) = 64 then
        ({ overflowCheck s with
            column := (readByte buf (s.loop + 5) - 48) - 1, loop := s.loop + 6 }, false)
      else
        ({ overflowCheck s with
            column := (10 * (readByte buf (s.loop + 5) - 48)
                        + readByte buf (s.loop + 6) - 48) - 1,
            loop := s.loop + 7 }, false) := by
  have hl := overflowCheck_loop s
  rw [body_eq, if_neg (by rw [h0]; decide), h0, h1,
    controlChars_other _ _ _ (by decide) (by decide) (by decide)]
  by_cases h6 : readByte buf (s.loop + 6) = 64
  · simp [pcbSequence, hl, h2, h3, h4, h6]
  · simp [pcbSequence, hl, h2, h3, h4, h6]

/-- C7. Set cursor position: a pass whose current bytes are `@POS:` takes the byte
behind the colon as first digit `d1` (its value minus 48).  When the byte after it is `@`
the column becomes `d1 - 1` and `loop` moves by exactly 6; otherwise that byte is the
second digit `d2`, the column becomes `10 * d1 + d2 - 1` and `loop` moves by exactly 7.
The row is the one left by the overflow check at the head of the pass (the old row when
the column was not 80); colours, extent and buffer are unchanged.  A pass that then
appends a record (plain byte, or an `@` that starts no sequence) puts it at the column
set, so column number 1 gives record column 0 and 80 gives 79. -/
theorem set_cursor_position (inputFileBuffer : Nat → Nat) (s : State)
    (h0 : readByte inputFileBuffer s.loop = 64)
    (h1 : readByte inputFileBuffer (s.loop + 1) = 80)
    (h2 : readByte inputFileBuffer (s.loop + 2) = 79)
    (h3 : readByte inputFileBuffer (s.loop + 3) = 83)
    (h4 : readByte inputFileBuffer (s.loop + 4) = 58) :
    (readByte inputFileBuffer (s.loop + 6) = 64 →
      body inputFileBuffer s =
        ({ overflowCheck s with
            column := (readByte inputFileBuffer (s.loop + 5) - 48) - 1,
            loop := s.loop + 6 }, false)) ∧
    (readByte inputFileBuffer (s.loop + 6) ≠ 64 →
      body inputFileBuffer s =
        ({ overflowCheck s with
            column := 10 * (readByte inputFileBuffer (s.loop + 5) - 48)
                        + (readByte inputFileBuffer (s.loop + 6) - 48) - 1,
            loop := s.loop + 7 }, false)) ∧
    (body inputFileBuffer s).1.row = (overflowCheck s).row ∧
    (s.column ≠ 80 → (body inputFileBuffer s).1.row = s.row) ∧
    (body inputFileBuffer s).1.background = s.background ∧
    (body inputFileBuffer s).1.foreground = s.foreground ∧
    (body inputFileBuffer s).1.columnMax = s.columnMax ∧
    (body inputFileBuffer s).1.rowMax = s.rowMax ∧
    (body inputFileBuffer s).1.pcboard_buffer = s.pcboard_buffer ∧
    ((body inputFileBuffer s).1.column ≠ 80 →
      (plainByte (readByte inputFileBuffer (body inputFileBuffer s).1.loop) ∨
        (readByte inputFileBuffer (body inputFileBuffer s).1.loop = 64 ∧
          readByte inputFileBuffer ((body inputFileBuffer s).1.loop + 1) ≠ 88 ∧
          readByte inputFileBuffer ((body inputFileBuffer s).1.loop + 1) ≠ 67 ∧
          readByte inputFileBuffer ((body inputFileBuffer s).1.loop + 1) ≠ 80)) →
      (body inputFileBuffer (body inputFileBuffer s).1).1.pcboard_buffer =
        s.pcboard_buffer ++
          [{ column := (body inputFileBuffer s).1.column, row := (overflowCheck s).row,
             background := s.background, foreground := s.foreground,
             current_character :=
               readByte inputFileBuffer (body inputFileBuffer s).1.loop }]) := by
  obtain ⟨hb, hf⟩ := overflowCheck_colours s
  obtain ⟨hcm, hrm, hpb⟩ := overflowCheck_frame s
  have hbody := body_set_cursor inputFileBuffer s h0 h1 h2 h3 h4
  have hframe : (body inputFileBuffer s).1.row = (overflowCheck s).row ∧
      (body inputFileBuffer s).1.background = s.background ∧
      (body inputFileBuffer s).1.foreground = s.foreground ∧
      (body inputFileBuffer s).1.columnMax = s.columnMax ∧
      (body inputFileBuffer s).1.rowMax = s.rowMax ∧
      (body inputFileBuffer s).1.pcboard_buffer = s.pcboard_buffer := by
    rw [hbody]
    split_ifs <;> exact ⟨rfl, hb, hf, hcm, hrm, hpb⟩
  obtain ⟨g1, g2, g3, g4, g5, g6⟩ := hframe
  refine ⟨?_, ?_, g1, ?_, g2, g3, g4, g5, g6, ?_⟩
  · intro h6
    rw [hbody, if_pos h6]
  · intro h6
    rw [hbody, if_neg h6]
    simp only [Prod.mk.injEq, State.mk.injEq, and_true, true_and]
    omega
  · intro h80
    rw [g1]
    unfold overflowCheck
    rw [if_neg h80]
  · intro hcol hnext
    have hov : overflowCheck (body inputFileBuffer s).1 = (body inputFileBuffer s).1 := by
      unfold overflowCheck
      rw [if_neg hcol]
    rcases hnext with hpl | ⟨ha, hx, hc, hp⟩
    · rw [body_printable inputFileBuffer _ hpl, hov, g1, g2, g3, g6]
    · rw [body_at_sign inputFileBuffer _ ha hx hc hp, hov, g1, g2, g3, g6, ha]

/-- Instance of C7: `@POS:80A` at the start of the input. -/
theorem set_cursor_position_witness :
    readByte (bufferOf [64, 80, 79, 83, 58, 56, 48, 65]) initialState.loop = 64 ∧
    readByte (bufferOf [64, 80, 79, 83, 58, 56, 48, 65]) (initialState.loop + 1) = 80 ∧
    readByte (bufferOf [64, 80, 79, 83, 58, 56, 48, 65]) (initialState.loop + 2) = 79 ∧
    readByte (bufferOf [64, 80, 79, 83, 58, 56, 48, 65]) (initialState.loop + 3) = 83 ∧
    readByte (bufferOf [64, 80, 79, 83, 58, 56, 48, 65]) (initialState.loop + 4) = 58 ∧
    readByte (bufferOf [64, 80, 79, 83, 58, 56, 48, 65]) (initialState.loop + 6) ≠ 64 ∧
    body (bufferOf [64, 80, 79, 83, 58, 56, 48, 65]) initialState =
      ({ overflowCheck initialState with
          column := 10 * (readByte (bufferOf [64, 80, 79, 83, 58, 56, 48, 65])
                            (initialState.loop + 5) - 48)
                      + (readByte (bufferOf [64, 80, 79, 83, 58, 56, 48, 65])
                            (initialState.loop + 6) - 48) - 1,
          loop := initialState.loop + 7 }, false) :=
  ⟨by decide, by decide, by decide, by decide, by decide, by decide,
   (set_cursor_position (bufferOf [64, 80, 79, 83, 58, 56, 48, 65]) initialState
      (by decide) (by decide) (by decide) (by decide) (by decide)).2.1 (by decide)⟩

/-- The two boundary inputs of C7 decoded in full: `@POS:1@` leaves the closing `@` at
column 0, and `@POS:80A` puts `A` at column 79. -/
theorem set_cursor_position_examples :
    (pcboardScan (bufferOf [64, 80, 79, 83, 58, 49, 64]) 7).map (fun s => s.pcboard_buffer) =
      some [{ column := 0, row := 0, background := 0, foreground := 7,
              current_character := 64 }] ∧
    (pcboardScan (bufferOf [64, 80, 79, 83, 58, 56, 48, 65]) 8).map
        (fun s => s.pcboard_buffer) =
      some [{ column := 79, row := 0, background := 0, foreground := 7,
              current_character := 65 }] := by
  constructor <;> decide

/-- A pass over `@CLS`: cursor and extent are zeroed and `loop` moves by `4 + 1`. -/
theorem body_clear_screen (buf : Nat → Nat) (s : State) (h0 : readByte buf s.loop = 64)
    (h1 : readByte buf (s.loop + 1) = 67) (h2 : readByte buf (s.loop + 2) = 76)
    (h3 : readByte buf (s.loop + 3) = 83) :
    body buf s =
      ({ s with column := 0, row := 0, columnMax := 0, rowMax := 0, loop := s.loop + 5 },
        false) := by
  obtain ⟨hb, hf⟩ := overflowCheck_colours s
  obtain ⟨hcm, hrm, hpb⟩ := overflowCheck_frame s
  have hl := overflowCheck_loop s
  rw [body_eq, if_neg (by rw [h0]; decide), h0, h1,
    controlChars_other _ _ _ (by decide) (by decide) (by decide)]
  simp [pcbSequence, hl, h2, h3, hb, hf, hpb]

/-- C8. Clear screen resets only cursor and extent: from every state, a pass whose
current bytes are `@CLS` sets `column`, `row`, `columnMax` and `rowMax` to 0 and leaves
the buffer (length and records) and the current colours as they are. -/
theorem clear_screen_resets_cursor_and_extent (inputFileBuffer : Nat → Nat) (s : State)
    (h0 : readByte inputFileBuffer s.loop = 64)
    (h1 : readByte inputFileBuffer (s.loop + 1) = 67)
    (h2 : readByte inputFileBuffer (s.loop + 2) = 76)
    (h3 : readByte inputFileBuffer (s.loop + 3) = 83) :
    (body inputFileBuffer s).2 = false ∧
    (body inputFileBuffer s).1.column = 0 ∧ (body inputFileBuffer s).1.row = 0 ∧
    (body inputFileBuffer s).1.columnMax = 0 ∧ (body inputFileBuffer s).1.rowMax = 0 ∧
    (body inputFileBuffer s).1.pcboard_buffer = s.pcboard_buffer ∧
    (body inputFileBuffer s).1.pcboard_buffer.length = s.pcboard_buffer.length ∧
    (body inputFileBuffer s).1.background = s.background ∧
    (body inputFileBuffer s).1.foreground = s.foreground := by
  rw [body_clear_screen inputFileBuffer s h0 h1 h2 h3]
  exact ⟨rfl, rfl, rfl, rfl, rfl, rfl, rfl, rfl, rfl⟩

/-- Instance of C8: `ABCDE@CLS`, the state being the one reached after the five
letters; the whole scan keeps the five records at their coordinates. -/
theorem clear_screen_resets_cursor_and_extent_witness :
    readByte (bufferOf [65, 66, 67, 68, 69, 64, 67, 76, 83])
      (plainState (bufferOf [65, 66, 67, 68, 69, 64, 67, 76, 83]) 5).loop = 64 ∧
    ((body (bufferOf [65, 66, 67, 68, 69, 64, 67, 76, 83])
        (plainState (bufferOf [65, 66, 67, 68, 69, 64, 67, 76, 83]) 5)).2 = false ∧
      (body (bufferOf [65, 66, 67, 68, 69, 64, 67, 76, 83])
        (plainState (bufferOf [65, 66, 67, 68, 69, 64, 67, 76, 83]) 5)).1.column = 0) ∧
    pcboardScan (bufferOf [65, 66, 67, 68, 69, 64, 67, 76, 83]) 9 =
      some { loop := 10, column := 0, row := 0, columnMax := 0, rowMax := 0,
             background := 0, foreground := 7,
             pcboard_buffer :=
               [{ column := 0, row := 0, background := 0, foreground := 7,
                  current_character := 65 },
                { column := 1, row := 0, background := 0, foreground := 7,
                  current_character := 66 },
                { column := 2, row := 0, background := 0, foreground := 7,
                  current_character := 67 },
                { column := 3, row := 0, background := 0, foreground := 7,
                  current_character := 68 },
                { column := 4, row := 0, background := 0, foreground := 7,
                  current_character := 69 }] } :=
  ⟨by decide,
   ⟨(clear_screen_resets_cursor_and_extent (bufferOf [65, 66, 67, 68, 69, 64, 67, 76, 83])
      (plainState (bufferOf [65, 66, 67, 68, 69, 64, 67, 76, 83]) 5)
      (by decide) (by decide) (by decide) (by decide)).1,
    (clear_screen_resets_cursor_and_extent (bufferOf [65, 66, 67, 68, 69, 64, 67, 76, 83])
      (plainState (bufferOf [65, 66, 67, 68, 69, 64, 67, 76, 83]) 5)
      (by decide) (by decide) (by decide) (by decide)).2.1⟩,
   by decide⟩

/-- C9 (the claim as written fails). On the five bytes `@CLSA` the clear-screen pass
moves `loop` from 0 to 5, not to 4: the loop ends without a record for `A`. -/
theorem clear_screen_advance_counterexample :
    (body (bufferOf [64, 67, 76, 83, 65]) initialState).1.loop = 5 ∧
    pcboardScan (bufferOf [64, 67, 76, 83, 65]) 5 =
      some { loop := 5, column := 0, row := 0, columnMax := 0, rowMax := 0,
             background := 0, foreground := 7, pcboard_buffer := [] } := by
  constructor <;> decide

/-- C9 (amended). A clear-screen pass at offset `p` (bytes `@CLS`) moves `loop` to
`p + 5`: the byte right behind `@CLS` is skipped unread, no pass has any of the offsets
`p + 1 .. p + 4` as its current byte, and the loop goes on at offset `p + 5`; a plain byte
standing there gets its record at column 0, row 0. -/
theorem clear_screen_consumes_five (inputFileBuffer : Nat → Nat) (s : State)
    (h0 : readByte inputFileBuffer s.loop = 64)
    (h1 : readByte inputFileBuffer (s.loop + 1) = 67)
    (h2 : readByte inputFileBuffer (s.loop + 2) = 76)
    (h3 : readByte inputFileBuffer (s.loop + 3) = 83) :
    (body inputFileBuffer s).2 = false ∧
    (body inputFileBuffer s).1.loop = s.loop + 5 ∧
    (∀ (inputFileSize fuel : Nat), s.loop < inputFileSize →
      run inputFileBuffer inputFileSize (fuel + 1) s =
        run inputFileBuffer inputFileSize fuel (body inputFileBuffer s).1) ∧
    (∀ (inputFileSize fuel q : Nat),
      q ∈ scanPositions inputFileBuffer inputFileSize fuel s → q = s.loop ∨ s.loop + 5 ≤ q) ∧
    (plainByte (readByte inputFileBuffer (s.loop + 5)) →
      (body inputFileBuffer (body inputFileBuffer s).1).1.pcboard_buffer =
        s.pcboard_buffer ++
          [{ column := 0, row := 0, background := s.background, foreground := s.foreground,
             current_character := readByte inputFileBuffer (s.loop + 5) }]) := by
  have hb := body_clear_screen inputFileBuffer s h0 h1 h2 h3
  refine ⟨by rw [hb], by rw [hb], ?_, ?_, ?_⟩
  · intro N fuel hlt
    exact run_pass inputFileBuffer N fuel s _ hlt (by rw [hb])
  · intro N fuel q hq
    cases fuel with
    | zero => simp [scanPositions] at hq
    | succ fuel =>
      unfold scanPositions at hq
      split_ifs at hq with hlt
      · rw [hb] at hq
        rcases List.mem_cons.1 hq with hq | hq
        · exact Or.inl hq
        · exact Or.inr (scanPositions_ge inputFileBuffer N fuel _ q hq)
      · simp at hq
  · intro hpl
    rw [hb, body_printable inputFileBuffer _ hpl]
    rfl

/-- Instance of C9 (amended): `@CLS@A`, where the skipped byte is the closing `@`. -/
theorem clear_screen_consumes_five_witness :
    readByte (bufferOf [64, 67, 76, 83, 64, 65]) initialState.loop = 64 ∧
    readByte (bufferOf [64, 67, 76, 83, 64, 65]) (initialState.loop + 1) = 67 ∧
    readByte (bufferOf [64, 67, 76, 83, 64, 65]) (initialState.loop + 2) = 76 ∧
    readByte (bufferOf [64, 67, 76, 83, 64, 65]) (initialState.loop + 3) = 83 ∧
    (body (bufferOf [64, 67, 76, 83, 64, 65]) initialState).1.loop = initialState.loop + 5 ∧
    pcboardScan (bufferOf [64, 67, 76, 83, 64, 65]) 6 =
      some { loop := 6, column := 1, row := 0, columnMax := 0, rowMax := 0,
             background := 0, foreground := 7,
             pcboard_buffer := [{ column := 0, row := 0, background := 0, foreground := 7,
                                  current_character := 65 }] } :=
  ⟨by decide, by decide, by decide, by decide,
   (clear_screen_consumes_five (bufferOf [64, 67, 76, 83, 64, 65]) initialState
      (by decide) (by decide) (by decide) (by decide)).2.1,
   by decide⟩

/-- C10 (evaluation at the failing states). From every state with `column = 75`, a pass
over a Tab sets the column to 83 and keeps the row; the overflow check `column == 80` of
the next pass does not fire on 83, so a plain byte that follows is recorded at column 83
of the same row and the column goes on to 84. -/
theorem tab_overflow_does_not_wrap (inputFileBuffer : Nat → Nat) (s : State)
    (hcol : s.column = 75) (htab : readByte inputFileBuffer s.loop = 9)
    (hpl : plainByte (readByte inputFileBuffer (s.loop + 1))) :
    body inputFileBuffer s = ({ s with column := 83, loop := s.loop + 1 }, false) ∧
    overflowCheck { s with column := 83, loop := s.loop + 1 } =
      { s with column := 83, loop := s.loop + 1 } ∧
    body inputFileBuffer { s with column := 83, loop := s.loop + 1 } =
      ({ s with
          column := 84, loop := s.loop + 2,
          columnMax := max 83 s.columnMax, rowMax := max s.row s.rowMax,
          pcboard_buffer := s.pcboard_buffer ++
            [{ column := 83, row := s.row, background := s.background,
               foreground := s.foreground,
               current_character := readByte inputFileBuffer (s.loop + 1) }] }, false) := by
  have hov : overflowCheck s = s := by
    unfold overflowCheck
    rw [if_neg (by rw [hcol]; decide)]
  have hov' : overflowCheck { s with column := 83, loop := s.loop + 1 } =
      { s with column := 83, loop := s.loop + 1 } := by
    unfold overflowCheck
    rw [if_neg (by simp)]
  refine ⟨?_, hov', ?_⟩
  · rw [body_eq, if_neg (by rw [htab]; decide),
      pcbSequence_control _ _ _ _ (Or.inr (Or.inr htab))]
    simp [controlChars, htab, hov, hcol]
  · rw [body_printable inputFileBuffer _ hpl, hov']
    simp only [Prod.mk.injEq, State.mk.injEq, and_true, true_and]
    norm_num

/-- Instance of C10: 75 letters, a Tab and a letter; the last record is at column 83 of
row 0. -/
theorem tab_overflow_does_not_wrap_witness :
    (plainState (bufferOf (List.replicate 75 65 ++ [9, 66])) 75).column = 75 ∧
    readByte (bufferOf (List.replicate 75 65 ++ [9, 66]))
      (plainState (bufferOf (List.replicate 75 65 ++ [9, 66])) 75).loop = 9 ∧
    plainByte (readByte (bufferOf (List.replicate 75 65 ++ [9, 66]))
      ((plainState (bufferOf (List.replicate 75 65 ++ [9, 66])) 75).loop + 1)) ∧
    body (bufferOf (List.replicate 75 65 ++ [9, 66]))
        (plainState (bufferOf (List.replicate 75 65 ++ [9, 66])) 75) =
      ({ plainState (bufferOf (List.replicate 75 65 ++ [9, 66])) 75 with
          column := 83,
          loop := (plainState (bufferOf (List.replicate 75 65 ++ [9, 66])) 75).loop + 1 },
        false) ∧
    (pcboardScan (bufferOf (List.replicate 75 65 ++ [9, 66])) 77).map
        (fun s => s.pcboard_buffer.getLast?) =
      some (some { column := 83, row := 0, background := 0, foreground := 7,
                   current_character := 66 }) :=
  ⟨by decide, by decide, by decide,
   (tab_overflow_does_not_wrap (bufferOf (List.replicate 75 65 ++ [9, 66]))
      (plainState (bufferOf (List.replicate 75 65 ++ [9, 66])) 75)
      (by decide) (by decide) (by decide)).1,
   by decide⟩

/-- Invariant rule for the decode loop with bookkeeping: a relation between state and
bookkeeping value that every pass preserves holds when the loop is left, and the loop is
left within `inputFileSize - loop` passes. -/
theorem runGhost_invariant {G : Type} (upd : State → G → G) (Inv : State → G → Prop)
    (buf : Nat → Nat) (N : Nat)
    (hstep : ∀ s g, s.loop < N → Inv s g → Inv (body buf s).1 (upd s g)) :
    ∀ (fuel : Nat) (s : State) (g : G), N - s.loop ≤ fuel → Inv s g →
      ∃ t, run buf N fuel s = some t ∧ Inv t (runGhost upd buf N fuel s g) := by
  intro fuel
  induction fuel with
  | zero =>
    intro s g hf hi
    exact ⟨s, run_exit buf N 0 s (by omega), hi⟩
  | succ fuel ih =>
    intro s g hf hi
    by_cases hlt : s.loop < N
    · have hst := hstep s g hlt hi
      have hadv := body_loop_bounds buf s
      unfold runGhost
      rw [if_pos hlt]
      generalize hb : body buf s = r at hst hadv ⊢
      rcases r with ⟨s', b⟩
      cases b with
      | true => exact ⟨s', run_break buf N fuel s s' hlt hb, hst⟩
      | false =>
        have h1 := (hadv rfl).1
        simp only [] at h1
        obtain ⟨t, g1, g2⟩ := ih s' (upd s g) (by omega) hst
        exact ⟨t, by rw [run_pass buf N fuel s s' hlt hb]; exact g1, g2⟩
    · refine ⟨s, run_exit buf N _ s hlt, ?_⟩
      unfold runGhost
      rw [if_neg hlt]
      exact hi

/-- Invariant rule for the decode loop: a property of the state that every pass
preserves holds when the loop is left, and the loop is left. -/
theorem run_invariant (P : State → Prop) (buf : Nat → Nat) (N : Nat)
    (hstep : ∀ s, s.loop < N → P s → P (body buf s).1) :
    ∀ (fuel : Nat) (s : State), N - s.loop ≤ fuel → P s →
      ∃ t, run buf N fuel s = some t ∧ P t := by
  intro fuel s hf hp
  obtain ⟨t, h1, h2⟩ := runGhost_invariant (fun _ (g : Unit) => g) (fun s _ => P s) buf N
    (fun s _ hlt hi => hstep s hlt hi) fuel s () hf hp
  exact ⟨t, h1, h2⟩

/-- A pass leaves the buffer as it is or appends exactly one record at its end. -/
theorem body_append (buf : Nat → Nat) (s : State) :
    (body buf s).1.pcboard_buffer = s.pcboard_buffer ∨
      ∃ r, (body buf s).1.pcboard_buffer = s.pcboard_buffer ++ [r] := by
  obtain ⟨_, _, _, _, hp⟩ :=
    controlChars_frame (readByte buf s.loop) (readByte buf (s.loop + 1)) s
  rw [body_eq]
  split_ifs
  · exact Or.inl hp
  · simp only []
    rw [← hp]
    unfold pcbSequence
    simp only []
    split_ifs <;>
      first
      | exact Or.inr ⟨_, rfl⟩
      | exact Or.inl rfl

/-- The render loop calls `drawchar` once per record, in buffer order. -/
theorem renderCalls_eq_map (b : List pcbChar) :
    renderCalls b = b.map (fun r =>
      { column := r.column, row := r.row,
        background := colors r.background, foreground := colors r.foreground,
        character := r.current_character }) := by
  unfold renderCalls
  simp only []
  induction b using List.reverseRecOn with
  | nil => rfl
  | append_singleton l a ih =>
    rw [List.length_append, List.length_singleton, List.range_succ, List.filterMap_append,
      List.map_append]
    congr 1
    · rw [← ih]
      apply List.filterMap_congr
      intro i hi
      have hi' : i < l.length := List.mem_range.1 hi
      simp [List.get?_eq_getElem?, List.getElem?_append_left hi']
    · simp [List.get?_eq_getElem?]

/-- C18. The cell buffer is append-only: for every input and every pass of the decode
loop, the buffer after the pass is the buffer before it or that buffer with exactly one
record appended at the end; and the render loop issues one `drawchar` call per record
in exactly that order, its `k`-th call drawing the record of index `k`. -/
theorem buffer_append_only (inputFileBuffer : Nat → Nat) (s : State) :
    ((body inputFileBuffer s).1.pcboard_buffer = s.pcboard_buffer ∨
      ∃ r, (body inputFileBuffer s).1.pcboard_buffer = s.pcboard_buffer ++ [r]) ∧
    ∀ b : List pcbChar,
      (renderCalls b).length = b.length ∧
      (renderCalls b).map (fun d => (d.column, d.row, d.character)) =
        b.map (fun r => (r.column, r.row, r.current_character)) ∧
      ∀ k r, b.get? k = some r →
        (renderCalls b).get? k =
          some { column := r.column, row := r.row,
                 background := colors r.background, foreground := colors r.foreground,
                 character := r.current_character } := by
  refine ⟨body_append inputFileBuffer s, ?_⟩
  intro b
  rw [renderCalls_eq_map]
  refine ⟨by simp, by simp [List.map_map, Function.comp_def], ?_⟩
  intro k r hk
  simp only [List.get?_eq_getElem?] at hk ⊢
  simp [List.getElem?_map, hk]

/-- The decode loop is left for every input. -/
theorem pcboardScan_total (buf : Nat → Nat) (N : Nat) : ∃ t, pcboardScan buf N = some t := by
  obtain ⟨t, h, _⟩ := run_invariant (fun _ => True) buf N (fun _ _ _ => trivial) N
    initialState (by omega) trivial
  exact ⟨t, h⟩

/-- C13 (evaluation at the failing input). On `A`, ten Tabs and `B` the column runs
1, 9, 17, ..., 73, 81 without ever being equal to 80, so the overflow check never fires
and the record of `B` has column 81, outside `0 .. 79`. -/
theorem cell_column_outside_grid :
    (pcboardScan (bufferOf ([65] ++ List.replicate 10 9 ++ [66])) 12).map
        (fun s => s.pcboard_buffer) =
      some [{ column := 0, row := 0, background := 0, foreground := 7,
              current_character := 65 },
            { column := 81, row := 0, background := 0, foreground := 7,
              current_character := 66 }] ∧
    ¬ ((81 : Int) < 80) := by
  constructor <;> decide

theorem readByte_range (buf : Nat → Nat) (i : Nat) :
    0 ≤ readByte buf i ∧ readByte buf i ≤ 255 := by
  unfold readByte
  omega

/-- C14 (the claim as written fails). On `@X1FA` the operands are the bytes 49 and 70
(the characters `1` and `F`), and the record of `A` carries them as its colours. -/
theorem cell_colours_counterexample :
    (pcboardScan (bufferOf [64, 88, 49, 70, 65]) 5).map (fun s => s.pcboard_buffer) =
      some [{ column := 0, row := 0, background := 49, foreground := 70,
              current_character := 65 }] ∧
    ¬ ((49 : Int) ≤ 15) ∧ ¬ ((70 : Int) ≤ 15) := by
  refine ⟨by decide, by decide, by decide⟩

/-- Collecting the value of `loop` at the head of every pass gives the scan positions. -/
theorem runGhost_positions (buf : Nat → Nat) (N : Nat) :
    ∀ (fuel : Nat) (s : State) (g : List Nat),
      runGhost (fun (s : State) (g : List Nat) => g ++ [s.loop]) buf N fuel s g =
        g ++ scanPositions buf N fuel s := by
  intro fuel
  induction fuel with
  | zero => intro s g; simp [runGhost, scanPositions]
  | succ fuel ih =>
    intro s g
    unfold runGhost scanPositions
    split_ifs with hlt
    · generalize body buf s = r
      rcases r with ⟨s', b⟩
      cases b with
      | true => rfl
      | false =>
        simp only []
        rw [ih s' (g ++ [s.loop]), List.append_assoc]
        rfl
    · simp

/-- C14 (amended). Cell colours are raw operand bytes: for every input the loop is left
and every record in the buffer has `background` and `foreground` in `0 .. 255`; its
colour pair is the initial pair (0, 7) or, for a position `q` at which a pass of the scan
found `@X`, the pair of raw bytes at `q + 2` (background) and `q + 3` (foreground). -/
theorem cell_colours_are_bytes (inputFileBuffer : Nat → Nat) (inputFileSize : Nat) :
    ∃ s, pcboardScan inputFileBuffer inputFileSize = some s ∧
      ∀ r ∈ s.pcboard_buffer,
        (0 ≤ r.background ∧ r.background ≤ 255 ∧ 0 ≤ r.foreground ∧ r.foreground ≤ 255) ∧
        ((r.background = 0 ∧ r.foreground = 7) ∨
          ∃ q ∈ scanPositions inputFileBuffer inputFileSize inputFileSize initialState,
            readByte inputFileBuffer q = 64 ∧ readByte inputFileBuffer (q + 1) = 88 ∧
            r.background = readByte inputFileBuffer (q + 2) ∧
            r.foreground = readByte inputFileBuffer (q + 3)) := by
  have mono : ∀ (b f : Int) (g : List Nat) (x : Nat),
      ((b = 0 ∧ f = 7) ∨ ∃ q ∈ g, readByte inputFileBuffer q = 64 ∧
        readByte inputFileBuffer (q + 1) = 88 ∧ b = readByte inputFileBuffer (q + 2) ∧
        f = readByte inputFileBuffer (q + 3)) →
      ((b = 0 ∧ f = 7) ∨ ∃ q ∈ g ++ [x], readByte inputFileBuffer q = 64 ∧
        readByte inputFileBuffer (q + 1) = 88 ∧ b = readByte inputFileBuffer (q + 2) ∧
        f = readByte inputFileBuffer (q + 3)) := by
    intro b f g x h
    rcases h with h | ⟨q, hq, h⟩
    · exact Or.inl h
    · exact Or.inr ⟨q, List.mem_append_left _ hq, h⟩
  obtain ⟨t, h1, h2, h3⟩ := runGhost_invariant
    (fun (s : State) (g : List Nat) => g ++ [s.loop])
    (fun s g =>
      ((s.background = 0 ∧ s.foreground = 7) ∨ ∃ q ∈ g, readByte inputFileBuffer q = 64 ∧
        readByte inputFileBuffer (q + 1) = 88 ∧
        s.background = readByte inputFileBuffer (q + 2) ∧
        s.foreground = readByte inputFileBuffer (q + 3)) ∧
      ∀ r ∈ s.pcboard_buffer,
        ((r.background = 0 ∧ r.foreground = 7) ∨ ∃ q ∈ g, readByte inputFileBuffer q = 64 ∧
          readByte inputFileBuffer (q + 1) = 88 ∧
          r.background = readByte inputFileBuffer (q + 2) ∧
          r.foreground = readByte inputFileBuffer (q + 3)))
    inputFileBuffer inputFileSize
    (by
      intro s g _ ⟨hc, hb⟩
      by_cases hx : readByte inputFileBuffer s.loop = 64 ∧
          readByte inputFileBuffer (s.loop + 1) = 88
      · rw [body_set_colours inputFileBuffer s hx.1 hx.2]
        refine ⟨Or.inr ⟨s.loop, by simp, hx.1, hx.2, rfl, rfl⟩, ?_⟩
        intro r hr
        exact mono _ _ g s.loop
          (hb r (by rw [← (overflowCheck_frame s).2.2]; exact hr))
      · obtain ⟨e1, e2, new, e3, e4⟩ := body_colours inputFileBuffer s hx
        refine ⟨by rw [e1, e2]; exact mono _ _ g s.loop hc, ?_⟩
        intro r hr
        rw [e3] at hr
        rcases List.mem_append.1 hr with hr | hr
        · exact mono _ _ g s.loop (hb r hr)
        · obtain ⟨f1, f2⟩ := e4 r hr
          rw [f1, f2]
          exact mono _ _ g s.loop hc)
    inputFileSize initialState [] (by omega)
    ⟨Or.inl ⟨rfl, rfl⟩, by simp [initialState]⟩
  rw [runGhost_positions, List.nil_append] at h2 h3
  refine ⟨t, h1, ?_⟩
  intro r hr
  have hr' := h3 r hr
  refine ⟨?_, hr'⟩
  rcases hr' with ⟨hb, hf⟩ | ⟨q, _, _, _, hb, hf⟩
  · rw [hb, hf]
    decide
  · have r2 := readByte_range inputFileBuffer (q + 2)
    have r3 := readByte_range inputFileBuffer (q + 3)
    rw [hb, hf]
    exact ⟨r2.1, r2.2, r3.1, r3.2⟩

/-- C15 (evaluation at the failing inputs). For a file of `inputFileSize` bytes (at
least 129, below `2^63`) whose SAUCE record has `comments > 0` comment lines, the
adjustment subtracts `129 - (5 + 64 * comments)`: the size handed on is
`inputFileSize - 129 + (5 + 64 * comments)`, which is not
`inputFileSize - 129 - (5 + 64 * comments)` and, from two comment lines on, is larger
than the file. -/
theorem sauce_adjustment_adds_comment_block (inputFileSize comments : Nat)
    (hc : 0 < comments) (hc' : comments ≤ 255) (hs : 129 ≤ inputFileSize)
    (hs' : inputFileSize < 2 ^ 63) :
    sauceAdjustedSize inputFileSize comments = inputFileSize - 129 + (5 + 64 * comments) ∧
    sauceAdjustedSize inputFileSize comments ≠ inputFileSize - 129 - (5 + 64 * comments) ∧
    (2 ≤ comments → inputFileSize < sauceAdjustedSize inputFileSize comments) := by
  have h : sauceAdjustedSize inputFileSize comments =
      inputFileSize - 129 + (5 + 64 * comments) := by
    unfold sauceAdjustedSize
    rw [if_pos (by omega)]
    have h63 : (2 : Int) ^ 64 = 18446744073709551616 := by norm_num
    have h63' : (2 : Nat) ^ 63 = 9223372036854775808 := by norm_num
    rw [h63]
    rw [h63'] at hs'
    omega
  rw [h]
  refine ⟨rfl, by omega, by omega⟩

/-- Instance of C15: a file of 1000 bytes with two comment lines is handed on as 1004
bytes. -/
theorem sauce_adjustment_adds_comment_block_witness :
    0 < 2 ∧ 2 ≤ 255 ∧ 129 ≤ 1000 ∧ 1000 < 2 ^ 63 ∧
    sauceAdjustedSize 1000 2 = 1000 - 129 + (5 + 64 * 2) ∧
    sauceAdjustedSize 1000 2 ≠ 1000 - 129 - (5 + 64 * 2) ∧
    (2 ≤ 2 → 1000 < sauceAdjustedSize 1000 2) :=
  ⟨by decide, by decide, by decide, by norm_num,
   sauce_adjustment_adds_comment_block 1000 2 (by decide) (by decide) (by decide)
     (by norm_num)⟩

/-- C20 (evaluation at the failing input). On the single byte `A` the buffer holds one
record with the initial colours 0 and 7; `colors[0]` and `colors[7]` are not among the
sixteen entries the palette code assigns (indices 48-57 and 65-70), so both lookups of
the `drawchar` call find no assigned entry. -/
theorem initial_colours_miss_palette :
    (pcboardScan (bufferOf [65]) 1).map (fun s => s.pcboard_buffer) =
      some [{ column := 0, row := 0, background := 0, foreground := 7,
              current_character := 65 }] ∧
    (pcboardScan (bufferOf [65]) 1).map (fun s => renderCalls s.pcboard_buffer) =
      some [{ column := 0, row := 0, background := none, foreground := none,
              character := 65 }] ∧
    colors 0 = none ∧ colors 7 = none := by
  refine ⟨by decide, by decide, by decide, by decide⟩

/-- The first half of the body moves the row by the number of `row++` it executes. -/
theorem controlChars_row (buf : Nat → Nat) (s : State) :
    (controlChars (readByte buf s.loop) (readByte buf (s.loop + 1)) s).row =
      s.row + (rowAdvances buf s : Nat) := by
  unfold controlChars overflowCheck rowAdvances
  simp only []
  split_ifs <;> simp_all <;> omega

/-- What the `if / else if` chain does to row, extent and buffer: erase display, append a
record at the cursor, or neither. -/
theorem pcbSequence_cases (buf : Nat → Nat) (c n : Int) (t : State) :
    ((c = 64 ∧ n = 67 ∧ readByte buf (t.loop + 2) = 76 ∧ readByte buf (t.loop + 3) = 83) ∧
      (pcbSequence buf c n t).row = 0 ∧ (pcbSequence buf c n t).rowMax = 0 ∧
      (pcbSequence buf c n t).columnMax = 0 ∧
      (pcbSequence buf c n t).pcboard_buffer = t.pcboard_buffer) ∨
    (¬ (c = 64 ∧ n = 67 ∧ readByte buf (t.loop + 2) = 76 ∧ readByte buf (t.loop + 3) = 83) ∧
      (pcbSequence buf c n t).row = t.row ∧
      (∃ r, (pcbSequence buf c n t).pcboard_buffer = t.pcboard_buffer ++ [r] ∧
        r.row = t.row ∧ r.column = t.column) ∧
      (pcbSequence buf c n t).rowMax = max t.rowMax t.row ∧
      (pcbSequence buf c n t).columnMax = max t.columnMax t.column) ∨
    (¬ (c = 64 ∧ n = 67 ∧ readByte buf (t.loop + 2) = 76 ∧ readByte buf (t.loop + 3) = 83) ∧
      (pcbSequence buf c n t).row = t.row ∧
      (pcbSequence buf c n t).pcboard_buffer = t.pcboard_buffer ∧
      (pcbSequence buf c n t).rowMax = t.rowMax ∧
      (pcbSequence buf c n t).columnMax = t.columnMax) := by
  by_cases hx : c = 64 ∧ n = 88
  · refine Or.inr (Or.inr ⟨?_, ?_⟩)
    · intro h
      have := hx.2
      have := h.2.1
      omega
    · rw [pcbSequence, if_pos hx]
      exact ⟨rfl, rfl, rfl, rfl⟩
  by_cases hcls : c = 64 ∧ n = 67 ∧ readByte buf (t.loop + 2) = 76 ∧
      readByte buf (t.loop + 3) = 83
  · refine Or.inl ⟨hcls, ?_⟩
    rw [pcbSequence, if_neg hx, if_pos hcls]
    exact ⟨rfl, rfl, rfl, rfl⟩
  by_cases hpos : c = 64 ∧ n = 80 ∧ readByte buf (t.loop + 2) = 79 ∧
      readByte buf (t.loop + 3) = 83 ∧ readByte buf (t.loop + 4) = 58
  · refine Or.inr (Or.inr ⟨hcls, ?_⟩)
    rw [pcbSequence, if_neg hx, if_neg hcls, if_pos hpos]
    split_ifs <;> exact ⟨rfl, rfl, rfl, rfl⟩
  by_cases hpr : c ≠ 10 ∧ c ≠ 13 ∧ c ≠ 9
  · refine Or.inr (Or.inl ⟨hcls, ?_⟩)
    rw [pcbSequence, if_neg hx, if_neg hcls, if_neg hpos, if_pos hpr]
    refine ⟨rfl, ⟨_, rfl, rfl, rfl⟩, ?_, ?_⟩
    · show (if t.row > t.rowMax then t.row else t.rowMax) = max t.rowMax t.row
      rw [max_def]
      split_ifs <;> omega
    · show (if t.column > t.columnMax then t.column else t.columnMax) =
        max t.columnMax t.column
      rw [max_def]
      split_ifs <;> omega
  · refine Or.inr (Or.inr ⟨hcls, ?_⟩)
    rw [pcbSequence, if_neg hx, if_neg hcls, if_neg hpos, if_neg hpr]
    exact ⟨rfl, rfl, rfl, rfl⟩

/-- What one pass does to row, extent and buffer: it erases the display, or it moves the
row by its row advances and then appends a record at the cursor or appends nothing. -/
theorem body_cases (buf : Nat → Nat) (s : State) :
    (clearsScreen buf s ∧
      (body buf s).1.row = 0 ∧ (body buf s).1.rowMax = 0 ∧ (body buf s).1.columnMax = 0 ∧
      (body buf s).1.pcboard_buffer = s.pcboard_buffer) ∨
    (¬ clearsScreen buf s ∧
      (body buf s).1.row = s.row + (rowAdvances buf s : Nat) ∧
      ∃ r, (body buf s).1.pcboard_buffer = s.pcboard_buffer ++ [r] ∧
        r.row = s.row + (rowAdvances buf s : Nat) ∧
        (body buf s).1.rowMax = max s.rowMax r.row ∧
        (body buf s).1.columnMax = max s.columnMax r.column) ∨
    (¬ clearsScreen buf s ∧
      (body buf s).1.row = s.row + (rowAdvances buf s : Nat) ∧
      (body buf s).1.pcboard_buffer = s.pcboard_buffer ∧
      (body buf s).1.rowMax = s.rowMax ∧
      (body buf s).1.columnMax = s.columnMax) := by
  obtain ⟨_, _, hcm, hrm, hpb⟩ :=
    controlChars_frame (readByte buf s.loop) (readByte buf (s.loop + 1)) s
  have hrow := controlChars_row buf s
  have hloop := controlChars_loop (readByte buf s.loop) (readByte buf (s.loop + 1)) s
  have hcl : (readByte buf s.loop = 64 ∧ readByte buf (s.loop + 1) = 67 ∧
      readByte buf ((controlChars (readByte buf s.loop) (readByte buf (s.loop + 1)) s).loop
        + 2) = 76 ∧
      readByte buf ((controlChars (readByte buf s.loop) (readByte buf (s.loop + 1)) s).loop
        + 3) = 83) ↔ clearsScreen buf s := by
    unfold clearsScreen
    constructor
    · intro h
      rw [hloop, if_neg (fun h' => by have := h.1; have := h'.1; omega)] at h
      exact h
    · intro h
      rw [hloop, if_neg (fun h' => by have := h.1; have := h'.1; omega)]
      exact h
  rw [body_eq]
  split_ifs with h26
  · refine Or.inr (Or.inr ⟨?_, hrow, hpb, hrm, hcm⟩)
    intro h
    have := h.1
    omega
  · simp only []
    rcases pcbSequence_cases buf (readByte buf s.loop) (readByte buf (s.loop + 1))
      (controlChars (readByte buf s.loop) (readByte buf (s.loop + 1)) s) with
      ⟨h1, h2, h3, h4, h5⟩ | ⟨h1, h2, ⟨r, h3, h3', h3''⟩, h4, h5⟩ | ⟨h1, h2, h3, h4, h5⟩
    · exact Or.inl ⟨hcl.1 h1, h2, h3, h4, by rw [h5, hpb]⟩
    · exact Or.inr (Or.inl ⟨fun h => h1 (hcl.2 h), by rw [h2, hrow],
        r, by rw [h3, hpb], by rw [h3', hrow], by rw [h4, hrm, h3'], by rw [h5, hcm, h3'']⟩)
    · exact Or.inr (Or.inr ⟨fun h => h1 (hcl.2 h), by rw [h2, hrow], by rw [h3, hpb],
        by rw [h4, hrm], by rw [h5, hcm]⟩)

/-- The row counters follow the variables: `row` is the number of row advances since the
most recent erase-display and `rowMax` is that number as it stood when the most recent
record since then was appended. -/
theorem rowEvents_invariant (buf : Nat → Nat) (s : State) (g : RowEvents)
    (h : s.row = (g.sinceClear : Int) ∧ s.rowMax = (g.atLastCell : Int) ∧
      g.atLastCell ≤ g.sinceClear ∧ g.sinceClear ≤ g.total) :
    (body buf s).1.row = ((countRowEvents buf s g).sinceClear : Int) ∧
      (body buf s).1.rowMax = ((countRowEvents buf s g).atLastCell : Int) ∧
      (countRowEvents buf s g).atLastCell ≤ (countRowEvents buf s g).sinceClear ∧
      (countRowEvents buf s g).sinceClear ≤ (countRowEvents buf s g).total := by
  obtain ⟨hr, hm, h1, h2⟩ := h
  rcases body_cases buf s with ⟨hc, e1, e2, _, _⟩ | ⟨hc, e1, r, e2, e3, e4, _⟩ |
      ⟨hc, e1, e2, e3, _⟩
  · simp only [countRowEvents, if_pos hc]
    exact ⟨e1, e2, Nat.le_refl _, Nat.zero_le _⟩
  · have hem : emitsCell buf s := by
      unfold emitsCell
      rw [e2, List.length_append, List.length_singleton]
    simp only [countRowEvents, if_neg hc, if_pos hem]
    refine ⟨by rw [e1, hr]; push_cast; rfl, ?_, Nat.le_refl _, by omega⟩
    rw [e4, e3, hm, hr]
    push_cast
    omega
  · have hem : ¬ emitsCell buf s := by
      unfold emitsCell
      rw [e2]
      omega
    simp only [countRowEvents, if_neg hc, if_neg hem]
    exact ⟨by rw [e1, hr]; push_cast; rfl, by rw [e3, hm], by omega, by omega⟩

/-- C11 (the claim as written fails). On the single byte LF the scan performs one row
advance and emits no record: `rowMax` stays 0, so `rowMax + 1 = 1` while the number of
row advances plus 1 is 2. -/
theorem row_extent_counterexample :
    (pcboardScan (bufferOf [10]) 1).map (fun s => s.rowMax) = some 0 ∧
    (pcboardRowEvents (bufferOf [10]) 1).total = 1 := by
  constructor <;> decide

/-- C11 (amended). For all inputs the loop is left and `rowMax` equals the number of row
advances (lone LF, CR+LF pair, overflow wrap) performed after the most recent
erase-display (from the start when there is none) up to and including the pass that
appended the last record since then, 0 when no record was appended since then; the
cursor row is the number of row advances since that erase-display, and `rowMax` never
exceeds the number of all row advances of the scan. -/
theorem row_extent_counts_row_advances (inputFileBuffer : Nat → Nat) (inputFileSize : Nat) :
    ∃ s, pcboardScan inputFileBuffer inputFileSize = some s ∧
      s.rowMax + 1 = ((pcboardRowEvents inputFileBuffer inputFileSize).atLastCell : Int) + 1 ∧
      s.row = ((pcboardRowEvents inputFileBuffer inputFileSize).sinceClear : Int) ∧
      s.rowMax ≤ ((pcboardRowEvents inputFileBuffer inputFileSize).total : Int) := by
  obtain ⟨t, h1, h2, h3, h4, h5⟩ := runGhost_invariant (countRowEvents inputFileBuffer)
    (fun s g => s.row = (g.sinceClear : Int) ∧ s.rowMax = (g.atLastCell : Int) ∧
      g.atLastCell ≤ g.sinceClear ∧ g.sinceClear ≤ g.total)
    inputFileBuffer inputFileSize
    (fun s g _ hi => rowEvents_invariant inputFileBuffer s g hi)
    inputFileSize initialState { total := 0, sinceClear := 0, atLastCell := 0 } (by omega)
    ⟨rfl, rfl, Nat.le_refl _, Nat.le_refl _⟩
  refine ⟨t, h1, ?_, h2, ?_⟩
  · unfold pcboardRowEvents
    rw [h3]
  · unfold pcboardRowEvents
    rw [h3]
    exact_mod_cast Nat.le_trans h4 h5

theorem extentOf_append (f : pcbChar → Int) (l : List pcbChar) (r : pcbChar) :
    extentOf f (l ++ [r]) = max (extentOf f l) (f r) := by
  simp [extentOf, List.foldl_append]

/-- The value `extentOf f l` is the largest of 0 and the values of `f` on `l`. -/
theorem extentOf_spec (f : pcbChar → Int) (l : List pcbChar) :
    0 ≤ extentOf f l ∧ (∀ r ∈ l, f r ≤ extentOf f l) ∧
      (extentOf f l = 0 ∨ ∃ r ∈ l, f r = extentOf f l) := by
  induction l using List.reverseRecOn with
  | nil => exact ⟨Int.le_refl _, by simp, Or.inl rfl⟩
  | append_singleton l a ih =>
    obtain ⟨h0, hle, hex⟩ := ih
    rw [extentOf_append]
    refine ⟨le_max_of_le_left h0, ?_, ?_⟩
    · intro r hr
      rcases List.mem_append.1 hr with hr | hr
      · exact le_max_of_le_left (hle r hr)
      · rw [List.mem_singleton.1 hr]
        exact le_max_right _ _
    · rcases le_total (f a) (extentOf f l) with hcmp | hcmp
      · rw [max_eq_left hcmp]
        rcases hex with hex | ⟨r, hr, hex⟩
        · exact Or.inl hex
        · exact Or.inr ⟨r, List.mem_append_left _ hr, hex⟩
      · rw [max_eq_right hcmp]
        exact Or.inr ⟨a, by simp, rfl⟩

/-- The extent follows the records appended since the clear mark: every pass keeps
`rowMax` and `columnMax` equal to the extent of the records from the mark on, keeps rows
non-negative, and keeps the mark at 0 as long as no pass erases the display. -/
theorem clearMark_invariant (buf : Nat → Nat) (N : Nat) (s : State) (m : Nat)
    (hlt : s.loop < N)
    (h : m ≤ s.pcboard_buffer.length ∧
      s.rowMax = extentOf (fun r => r.row) (s.pcboard_buffer.drop m) ∧
      s.columnMax = extentOf (fun r => r.column) (s.pcboard_buffer.drop m) ∧
      0 ≤ s.row ∧ (∀ r ∈ s.pcboard_buffer, 0 ≤ r.row) ∧
      ((∀ t : State, t.loop < N → ¬ clearsScreen buf t) → m = 0)) :
    markClear buf s m ≤ (body buf s).1.pcboard_buffer.length ∧
      (body buf s).1.rowMax =
        extentOf (fun r => r.row) ((body buf s).1.pcboard_buffer.drop (markClear buf s m)) ∧
      (body buf s).1.columnMax =
        extentOf (fun r => r.column)
          ((body buf s).1.pcboard_buffer.drop (markClear buf s m)) ∧
      0 ≤ (body buf s).1.row ∧ (∀ r ∈ (body buf s).1.pcboard_buffer, 0 ≤ r.row) ∧
      ((∀ t : State, t.loop < N → ¬ clearsScreen buf t) → markClear buf s m = 0) := by
  obtain ⟨hm, hr, hc, hrow, hrows, hz⟩ := h
  rcases body_cases buf s with ⟨hcl, e1, e2, e3, e4⟩ | ⟨hcl, e1, r, e2, e3, e4, e5⟩ |
      ⟨hcl, e1, e2, e3, e4⟩
  · simp only [markClear, if_pos hcl]
    rw [e4, e2, e3, e1, List.drop_length]
    exact ⟨Nat.le_refl _, rfl, rfl, Int.le_refl _, hrows,
      fun hno => absurd hcl (hno s hlt)⟩
  · simp only [markClear, if_neg hcl]
    rw [e2, List.drop_append_of_le_length hm, extentOf_append, extentOf_append, e4, e5,
      ← hr, ← hc, e1, List.length_append, List.length_singleton]
    refine ⟨by omega, rfl, rfl, by omega, ?_, hz⟩
    intro r' hr'
    rcases List.mem_append.1 hr' with hr' | hr'
    · exact hrows r' hr'
    · rw [List.mem_singleton.1 hr', e3]
      omega
  · simp only [markClear, if_neg hcl]
    rw [e2, e3, e4, e1]
    exact ⟨hm, hr, hc, by omega, hrows, hz⟩

/-- The invariant of `clearMark_invariant` at the end of the decode loop. -/
theorem clearMark_final (buf : Nat → Nat) (N : Nat) :
    ∃ s, pcboardScan buf N = some s ∧
      pcboardClearMark buf N ≤ s.pcboard_buffer.length ∧
      s.rowMax = extentOf (fun r => r.row) (s.pcboard_buffer.drop (pcboardClearMark buf N)) ∧
      s.columnMax =
        extentOf (fun r => r.column) (s.pcboard_buffer.drop (pcboardClearMark buf N)) ∧
      0 ≤ s.row ∧ (∀ r ∈ s.pcboard_buffer, 0 ≤ r.row) ∧
      ((∀ t : State, t.loop < N → ¬ clearsScreen buf t) → pcboardClearMark buf N = 0) := by
  obtain ⟨t, h1, h2⟩ := runGhost_invariant (markClear buf)
    (fun s m => m ≤ s.pcboard_buffer.length ∧
      s.rowMax = extentOf (fun r => r.row) (s.pcboard_buffer.drop m) ∧
      s.columnMax = extentOf (fun r => r.column) (s.pcboard_buffer.drop m) ∧
      0 ≤ s.row ∧ (∀ r ∈ s.pcboard_buffer, 0 ≤ r.row) ∧
      ((∀ t : State, t.loop < N → ¬ clearsScreen buf t) → m = 0))
    buf N (fun s m hlt hi => clearMark_invariant buf N s m hlt hi)
    N initialState 0 (by omega)
    ⟨Nat.zero_le _, rfl, rfl, Int.le_refl _, by simp [initialState], fun _ => rfl⟩
  exact ⟨t, h1, h2⟩

/-- C16. Extent is a running maximum since the last clear: for every input the loop is
left, and with `mark` the number of records the buffer held at the most recent
erase-display (0 when there was none), `rowMax` is the largest row and `columnMax` the
largest column among the records from index `mark` on, each taken as 0 when there is no
such record or the largest value is below 0. -/
theorem extent_is_running_maximum (inputFileBuffer : Nat → Nat) (inputFileSize : Nat) :
    ∃ s, pcboardScan inputFileBuffer inputFileSize = some s ∧
      pcboardClearMark inputFileBuffer inputFileSize ≤ s.pcboard_buffer.length ∧
      s.rowMax = extentOf (fun r => r.row)
        (s.pcboard_buffer.drop (pcboardClearMark inputFileBuffer inputFileSize)) ∧
      s.columnMax = extentOf (fun r => r.column)
        (s.pcboard_buffer.drop (pcboardClearMark inputFileBuffer inputFileSize)) ∧
      0 ≤ s.rowMax ∧ 0 ≤ s.columnMax ∧
      (∀ r ∈ s.pcboard_buffer.drop (pcboardClearMark inputFileBuffer inputFileSize),
        r.row ≤ s.rowMax ∧ r.column ≤ s.columnMax) ∧
      (s.rowMax = 0 ∨
        ∃ r ∈ s.pcboard_buffer.drop (pcboardClearMark inputFileBuffer inputFileSize),
          r.row = s.rowMax) ∧
      (s.columnMax = 0 ∨
        ∃ r ∈ s.pcboard_buffer.drop (pcboardClearMark inputFileBuffer inputFileSize),
          r.column = s.columnMax) := by
  obtain ⟨s, h1, h2, h3, h4, _, _, _⟩ := clearMark_final inputFileBuffer inputFileSize
  obtain ⟨r0, rle, rex⟩ := extentOf_spec (fun r => r.row)
    (s.pcboard_buffer.drop (pcboardClearMark inputFileBuffer inputFileSize))
  obtain ⟨c0, cle, cex⟩ := extentOf_spec (fun r => r.column)
    (s.pcboard_buffer.drop (pcboardClearMark inputFileBuffer inputFileSize))
  rw [← h3] at r0 rle rex
  rw [← h4] at c0 cle cex
  exact ⟨s, h1, h2, h3, h4, r0, c0, fun r hr => ⟨rle r hr, cle r hr⟩, rex, cex⟩

/-- C17 (the claim as written fails). On LF, `A`, `@CLS` the record of `A` is at row 1
and stays in the buffer, while the erase-display resets `rowMax` to 0: the record lies
below the canvas of `rowMax + 1 = 1` rows. -/
theorem cell_below_canvas_counterexample :
    pcboardScan (bufferOf [10, 65, 64, 67, 76, 83]) 6 =
      some { loop := 7, column := 0, row := 0, columnMax := 0, rowMax := 0,
             background := 0, foreground := 7,
             pcboard_buffer := [{ column := 0, row := 1, background := 0, foreground := 7,
                                  current_character := 65 }] } ∧
    ¬ ((1 : Int) ≤ 0) := by
  constructor <;> decide

theorem wrap32_of_range (x : Int) (h1 : -2147483648 ≤ x) (h2 : x < 2147483648) :
    wrap32 x = x := by
  unfold wrap32
  omega

/-- C17 (amended). For every input the loop is left and every record appended after the
most recent erase-display has `0 <= row <= rowMax`; when no pass erases the display
this holds for every record in the buffer.  When `rowMax + 1` and the product
`(rowMax + 1) * fontHeight` are below `2^31`, the canvas is created
`(rowMax + 1) * fontHeight` high and the glyph rows of these records lie inside that
height. -/
theorem cells_since_clear_within_canvas (inputFileBuffer : Nat → Nat) (inputFileSize : Nat)
    (bits fontHeight : Int) (hfont : 0 ≤ fontHeight) :
    ∃ s, pcboardScan inputFileBuffer inputFileSize = some s ∧
      (∀ r ∈ s.pcboard_buffer.drop (pcboardClearMark inputFileBuffer inputFileSize),
        0 ≤ r.row ∧ r.row ≤ s.rowMax) ∧
      ((∀ t : State, t.loop < inputFileSize → ¬ clearsScreen inputFileBuffer t) →
        ∀ r ∈ s.pcboard_buffer, 0 ≤ r.row ∧ r.row ≤ s.rowMax) ∧
      (s.rowMax + 1 < 2147483648 → (s.rowMax + 1) * fontHeight < 2147483648 →
        (canvasSize inputFileBuffer inputFileSize bits fontHeight).map Prod.snd =
          some ((s.rowMax + 1) * fontHeight) ∧
        ∀ r ∈ s.pcboard_buffer.drop (pcboardClearMark inputFileBuffer inputFileSize),
          0 ≤ r.row * fontHeight ∧
            r.row * fontHeight + fontHeight ≤ (s.rowMax + 1) * fontHeight) := by
  obtain ⟨s, h1, h2, h3, _, _, hrows, hz⟩ := clearMark_final inputFileBuffer inputFileSize
  obtain ⟨r0, rle, _⟩ := extentOf_spec (fun r => r.row)
    (s.pcboard_buffer.drop (pcboardClearMark inputFileBuffer inputFileSize))
  rw [← h3] at rle r0
  refine ⟨s, h1, ?_, ?_, ?_⟩
  · intro r hr
    exact ⟨hrows r (List.mem_of_mem_drop hr), rle r hr⟩
  · intro hno r hr
    have hm := hz hno
    rw [hm, List.drop_zero] at rle
    exact ⟨hrows r hr, rle r hr⟩
  · intro hr31 hp31
    have hpos : 0 ≤ (s.rowMax + 1) * fontHeight := Int.mul_nonneg (by omega) hfont
    refine ⟨?_, ?_⟩
    · simp only [canvasSize, h1, Option.map_some']
      rw [wrap32_of_range (s.rowMax + 1) (by omega) hr31,
        wrap32_of_range ((s.rowMax + 1) * fontHeight) (by omega) hp31]
    · intro r hr
      have h0 := hrows r (List.mem_of_mem_drop hr)
      have hle := rle r hr
      refine ⟨Int.mul_nonneg h0 hfont, ?_⟩
      have : (r.row + 1) * fontHeight ≤ (s.rowMax + 1) * fontHeight :=
        Int.mul_le_mul_of_nonneg_right (by omega) hfont
      rw [Int.add_mul, Int.one_mul] at this
      exact this

/-- Instance of C17 (amended): `A`, LF, `B` with an 8 by 16 font. -/
theorem cells_since_clear_within_canvas_witness :
    (0 : Int) ≤ 16 ∧
    ∃ s, pcboardScan (bufferOf [65, 10, 66]) 3 = some s ∧
      (∀ r ∈ s.pcboard_buffer.drop (pcboardClearMark (bufferOf [65, 10, 66]) 3),
        0 ≤ r.row ∧ r.row ≤ s.rowMax) ∧
      ((∀ t : State, t.loop < 3 → ¬ clearsScreen (bufferOf [65, 10, 66]) t) →
        ∀ r ∈ s.pcboard_buffer, 0 ≤ r.row ∧ r.row ≤ s.rowMax) ∧
      (s.rowMax + 1 < 2147483648 → (s.rowMax + 1) * 16 < 2147483648 →
        (canvasSize (bufferOf [65, 10, 66]) 3 8 16).map Prod.snd =
          some ((s.rowMax + 1) * 16) ∧
        ∀ r ∈ s.pcboard_buffer.drop (pcboardClearMark (bufferOf [65, 10, 66]) 3),
          0 ≤ r.row * 16 ∧ r.row * 16 + 16 ≤ (s.rowMax + 1) * 16) :=
  ⟨by decide, cells_since_clear_within_canvas (bufferOf [65, 10, 66]) 3 8 16 (by decide)⟩

/-- A `@POS:` pass followed by the pass over its closing `@`: the sequence stops in front
of the `@`, and the `@` is appended at the column just set. -/
theorem set_cursor_then_at_sign (buf : Nat → Nat) (s : State) (n : Int) (k : Nat)
    (h0 : readByte buf s.loop = 64) (h1 : readByte buf (s.loop + 1) = 80)
    (h2 : readByte buf (s.loop + 2) = 79) (h3 : readByte buf (s.loop + 3) = 83)
    (h4 : readByte buf (s.loop + 4) = 58)
    (hd : (readByte buf (s.loop + 6) = 64 ∧ n = readByte buf (s.loop + 5) - 48 ∧ k = 6) ∨
      (readByte buf (s.loop + 6) ≠ 64 ∧
        n = 10 * (readByte buf (s.loop + 5) - 48) + (readByte buf (s.loop + 6) - 48) ∧
        readByte buf (s.loop + 7) = 64 ∧ k = 7))
    (hn : n - 1 ≠ 80)
    (hx : readByte buf (s.loop + k + 1) ≠ 88) (hc : readByte buf (s.loop + k + 1) ≠ 67)
    (hp : readByte buf (s.loop + k + 1) ≠ 80) :
    body buf s = ({ overflowCheck s with column := n - 1, loop := s.loop + k }, false) ∧
    body buf { overflowCheck s with column := n - 1, loop := s.loop + k } =
      ({ overflowCheck s with
          column := n - 1 + 1, loop := s.loop + k + 1,
          columnMax := max (n - 1) s.columnMax,
          rowMax := max (overflowCheck s).row s.rowMax,
          pcboard_buffer := s.pcboard_buffer ++
            [{ column := n - 1, row := (overflowCheck s).row, background := s.background,
               foreground := s.foreground, current_character := 64 }] }, false) := by
  obtain ⟨hb, hf⟩ := overflowCheck_colours s
  obtain ⟨hcm, hrm, hpb⟩ := overflowCheck_frame s
  have hbody := body_set_cursor buf s h0 h1 h2 h3 h4
  have hat : readByte buf (s.loop + k) = 64 := by
    rcases hd with ⟨h6, _, hk⟩ | ⟨_, _, h7, hk⟩
    · rw [hk]; exact h6
    · rw [hk]; exact h7
  have hfirst : body buf s =
      ({ overflowCheck s with column := n - 1, loop := s.loop + k }, false) := by
    rcases hd with ⟨h6, hn', hk⟩ | ⟨h6, hn', _, hk⟩
    · rw [hbody, if_pos h6, hn', hk]
    · rw [hbody, if_neg h6, hn', hk]
      simp only [Prod.mk.injEq, State.mk.injEq, and_true, true_and]
      omega
  refine ⟨hfirst, ?_⟩
  have hov : overflowCheck { overflowCheck s with column := n - 1, loop := s.loop + k } =
      { overflowCheck s with column := n - 1, loop := s.loop + k } := by
    unfold overflowCheck
    split_ifs <;> rfl
  rw [body_at_sign buf { overflowCheck s with column := n - 1, loop := s.loop + k }
    hat hx hc hp, hov]
  simp only [Prod.mk.injEq, State.mk.injEq, and_true, true_and, hb, hf, hcm, hrm, hpb]

/-- Fuel beyond `inputFileSize - loop` does not change the result of the loop. -/
theorem run_fuel_irrelevant (buf : Nat → Nat) (N : Nat) :
    ∀ (fuel fuel' : Nat) (s : State), N - s.loop ≤ fuel → N - s.loop ≤ fuel' →
      run buf N fuel s = run buf N fuel' s := by
  intro fuel
  induction fuel with
  | zero =>
    intro fuel' s hf _
    rw [run_exit buf N 0 s (by omega), run_exit buf N fuel' s (by omega)]
  | succ fuel ih =>
    intro fuel' s hf hf'
    by_cases hlt : s.loop < N
    · obtain ⟨f, rfl⟩ : ∃ f, fuel' = f + 1 := ⟨fuel' - 1, by omega⟩
      have hadv := body_loop_bounds buf s
      generalize hb : body buf s = r at hadv
      rcases r with ⟨s', b⟩
      cases b with
      | true => rw [run_break buf N fuel s s' hlt hb, run_break buf N f s s' hlt hb]
      | false =>
        have h1 := (hadv rfl).1
        simp only [] at h1
        rw [run_pass buf N fuel s s' hlt hb, run_pass buf N f s s' hlt hb]
        exact ih f s' (by omega) (by omega)
    · rw [run_exit buf N _ s hlt, run_exit buf N fuel' s hlt]

/-- A position among the scan positions is the `loop` of a state the loop passes
through: the rest of the loop runs from that state, with the buffer so far extended. -/
theorem scanPositions_reach (buf : Nat → Nat) (N p : Nat) :
    ∀ (fuel : Nat) (s0 : State), p ∈ scanPositions buf N fuel s0 → N - s0.loop ≤ fuel →
      ∃ s, s.loop = p ∧ p < N ∧
        ∀ f, N - p ≤ f → run buf N fuel s0 = run buf N f s := by
  intro fuel
  induction fuel with
  | zero => intro s0 hmem; simp [scanPositions] at hmem
  | succ fuel ih =>
    intro s0 hmem hf
    unfold scanPositions at hmem
    split_ifs at hmem with hlt
    swap
    · simp at hmem
    have hadv := body_loop_bounds buf s0
    generalize hb : body buf s0 = r at hmem hadv
    rcases r with ⟨s', b⟩
    rcases List.mem_cons.1 hmem with h | hmem'
    · refine ⟨s0, h.symm, by omega, ?_⟩
      intro f hfp
      exact run_fuel_irrelevant buf N _ f s0 hf (by omega)
    · cases b with
      | true => simp at hmem'
      | false =>
        have h1 := (hadv rfl).1
        simp only [] at h1 hmem'
        obtain ⟨s, e1, e2, e3⟩ := ih s' hmem' (by omega)
        refine ⟨s, e1, e2, ?_⟩
        intro f hfp
        rw [run_pass buf N fuel s0 s' hlt hb]
        exact e3 f hfp

/-- The buffer at the end of the loop extends the buffer of every state on the way. -/
theorem run_buffer_extends (buf : Nat → Nat) (N : Nat) :
    ∀ (fuel : Nat) (s t : State), run buf N fuel s = some t →
      ∃ more, t.pcboard_buffer = s.pcboard_buffer ++ more := by
  intro fuel
  induction fuel with
  | zero =>
    intro s t h
    unfold run at h
    split_ifs at h
    rw [← Option.some.inj h]
    exact ⟨[], (List.append_nil _).symm⟩
  | succ fuel ih =>
    intro s t h
    by_cases hlt : s.loop < N
    · have happ := body_append buf s
      generalize hb : body buf s = r at happ
      rcases r with ⟨s', b⟩
      simp only [] at happ
      have hpre : ∃ more, s'.pcboard_buffer = s.pcboard_buffer ++ more := by
        rcases happ with e | ⟨r, e⟩
        · exact ⟨[], by rw [e, List.append_nil]⟩
        · exact ⟨[r], e⟩
      obtain ⟨m1, hm1⟩ := hpre
      cases b with
      | true =>
        rw [run_break buf N fuel s s' hlt hb] at h
        rw [← Option.some.inj h]
        exact ⟨m1, hm1⟩
      | false =>
        rw [run_pass buf N fuel s s' hlt hb] at h
        obtain ⟨m2, hm2⟩ := ih s' t h
        exact ⟨m1 ++ m2, by rw [hm2, hm1, List.append_assoc]⟩
    · rw [run_exit buf N _ s hlt] at h
      rw [← Option.some.inj h]
      exact ⟨[], (List.append_nil _).symm⟩

/-- C21 (the claim as written fails). Both inputs contain `@POS:5@A`.  Behind a Sub byte
the scan stops at once and no record is appended.  Behind `@CLS` the erase-display pass
skips the `@` of `@POS:`, so `POS:5` is decoded as plain text and the closing `@` is
recorded at column 5, not at column `5 - 1`. -/
theorem closing_at_sign_counterexample :
    (pcboardScan (bufferOf [26, 64, 80, 79, 83, 58, 53, 64, 65]) 9).map
        (fun s => s.pcboard_buffer) = some [] ∧
    (pcboardScan (bufferOf [64, 67, 76, 83, 64, 80, 79, 83, 58, 53, 64, 65]) 12).map
        (fun s => s.pcboard_buffer.filter (fun r => r.current_character = 64)) =
      some [{ column := 5, row := 0, background := 0, foreground := 7,
              current_character := 64 }] := by
  constructor <;> decide

/-- C21 (amended). The `@` that closes a cursor-position sequence is rendered when the
scan reaches the sequence: let `@POS:` stand at offset `p`, followed by a one-digit column
and `@` (closing `@` at `p + k`, `k = 6`) or by a two-digit column and `@` (`k = 7`), with
parsed column `n` in `1 .. 80`, and let the byte after the closing `@` be none of `X`,
`C`, `P`.  Then from every state at `p` the sequence pass stops with `loop` on the
closing `@` (it is not consumed) and the next pass appends it as a record with code 64
at column `n - 1` on the row of the cursor; and for every input size that puts the byte
after the closing `@` inside the buffer, if `p` is the current position of a pass of the
scan, the loop is left with that record in the buffer. -/
theorem closing_at_sign_is_rendered (inputFileBuffer : Nat → Nat) (p : Nat) (n : Int)
    (k : Nat)
    (h0 : readByte inputFileBuffer p = 64) (h1 : readByte inputFileBuffer (p + 1) = 80)
    (h2 : readByte inputFileBuffer (p + 2) = 79) (h3 : readByte inputFileBuffer (p + 3) = 83)
    (h4 : readByte inputFileBuffer (p + 4) = 58)
    (hd : (readByte inputFileBuffer (p + 6) = 64 ∧
        n = readByte inputFileBuffer (p + 5) - 48 ∧ k = 6) ∨
      (readByte inputFileBuffer (p + 6) ≠ 64 ∧
        n = 10 * (readByte inputFileBuffer (p + 5) - 48) +
          (readByte inputFileBuffer (p + 6) - 48) ∧
        readByte inputFileBuffer (p + 7) = 64 ∧ k = 7))
    (hn : 1 ≤ n ∧ n ≤ 80)
    (hx : readByte inputFileBuffer (p + k + 1) ≠ 88)
    (hc : readByte inputFileBuffer (p + k + 1) ≠ 67)
    (hp : readByte inputFileBuffer (p + k + 1) ≠ 80) :
    readByte inputFileBuffer (p + k) = 64 ∧
    (∀ s : State, s.loop = p →
      (body inputFileBuffer s).2 = false ∧
      (body inputFileBuffer s).1.loop = p + k ∧
      (body inputFileBuffer s).1.pcboard_buffer = s.pcboard_buffer ∧
      (body inputFileBuffer (body inputFileBuffer s).1).2 = false ∧
      (body inputFileBuffer (body inputFileBuffer s).1).1.loop = p + k + 1 ∧
      (body inputFileBuffer (body inputFileBuffer s).1).1.pcboard_buffer =
        s.pcboard_buffer ++
          [{ column := n - 1, row := (overflowCheck s).row, background := s.background,
             foreground := s.foreground, current_character := 64 }]) ∧
    (∀ inputFileSize : Nat,
      p ∈ scanPositions inputFileBuffer inputFileSize inputFileSize initialState →
      p + k + 1 < inputFileSize →
      ∃ s t, s.loop = p ∧ pcboardScan inputFileBuffer inputFileSize = some t ∧
        ({ column := n - 1, row := (overflowCheck s).row, background := s.background,
           foreground := s.foreground, current_character := 64 } : pcbChar)
          ∈ t.pcboard_buffer) := by
  have hat : readByte inputFileBuffer (p + k) = 64 := by
    rcases hd with ⟨h6, _, hk⟩ | ⟨_, _, h7, hk⟩
    · rw [hk]; exact h6
    · rw [hk]; exact h7
  have hpass : ∀ s : State, s.loop = p →
      body inputFileBuffer s =
        ({ overflowCheck s with column := n - 1, loop := s.loop + k }, false) ∧
      body inputFileBuffer { overflowCheck s with column := n - 1, loop := s.loop + k } =
        ({ overflowCheck s with
            column := n - 1 + 1, loop := s.loop + k + 1,
            columnMax := max (n - 1) s.columnMax,
            rowMax := max (overflowCheck s).row s.rowMax,
            pcboard_buffer := s.pcboard_buffer ++
              [{ column := n - 1, row := (overflowCheck s).row, background := s.background,
                 foreground := s.foreground, current_character := 64 }] }, false) := by
    intro s hs
    subst hs
    exact set_cursor_then_at_sign inputFileBuffer s n k h0 h1 h2 h3 h4 hd (by omega) hx hc hp
  refine ⟨hat, ?_, ?_⟩
  · intro s hs
    obtain ⟨e1, e2⟩ := hpass s hs
    have a1 : (body inputFileBuffer s).1 =
        { overflowCheck s with column := n - 1, loop := s.loop + k } := by rw [e1]
    refine ⟨by rw [e1], by rw [a1, ← hs], by rw [a1]; exact (overflowCheck_frame s).2.2,
      by rw [a1, e2], by rw [a1, e2, ← hs], by rw [a1, e2]⟩
  · intro N hreach hN
    obtain ⟨s, hs, hpN, hrun⟩ := scanPositions_reach inputFileBuffer N p N initialState
      hreach (by omega)
    obtain ⟨e1, e2⟩ := hpass s hs
    have hscan : pcboardScan inputFileBuffer N = run inputFileBuffer N (N + 1 + 1) s :=
      hrun (N + 1 + 1) (by omega)
    rw [run_pass inputFileBuffer N (N + 1) s _ (by omega) e1,
      run_pass inputFileBuffer N N _ _ (by show s.loop + k < N; omega) e2] at hscan
    obtain ⟨t, ht, _⟩ := run_invariant (fun _ => True) inputFileBuffer N
      (fun _ _ _ => trivial) N
      { overflowCheck s with
          column := n - 1 + 1, loop := s.loop + k + 1,
          columnMax := max (n - 1) s.columnMax,
          rowMax := max (overflowCheck s).row s.rowMax,
          pcboard_buffer := s.pcboard_buffer ++
            [{ column := n - 1, row := (overflowCheck s).row, background := s.background,
               foreground := s.foreground, current_character := 64 }] }
      (by omega) trivial
    obtain ⟨more, hmore⟩ := run_buffer_extends inputFileBuffer N N _ t ht
    refine ⟨s, t, hs, by rw [hscan, ht], ?_⟩
    rw [hmore]
    simp

/-- Instance of C21 (amended): `@POS:5@A` at the start of the input, decoded in full, and the
two-digit input `@POS:80@A`. -/
theorem closing_at_sign_is_rendered_witness :
    readByte (bufferOf [64, 80, 79, 83, 58, 53, 64, 65]) 0 = 64 ∧
    readByte (bufferOf [64, 80, 79, 83, 58, 53, 64, 65]) (0 + 6) = 64 ∧
    (5 : Int) = readByte (bufferOf [64, 80, 79, 83, 58, 53, 64, 65]) (0 + 5) - 48 ∧
    ((1 : Int) ≤ 5 ∧ (5 : Int) ≤ 80) ∧
    readByte (bufferOf [64, 80, 79, 83, 58, 53, 64, 65]) (0 + 6 + 1) ≠ 88 ∧
    (0 ∈ scanPositions (bufferOf [64, 80, 79, 83, 58, 53, 64, 65]) 8 8 initialState) ∧
    (∃ s t, s.loop = 0 ∧
      pcboardScan (bufferOf [64, 80, 79, 83, 58, 53, 64, 65]) 8 = some t ∧
      ({ column := 5 - 1, row := (overflowCheck s).row, background := s.background,
         foreground := s.foreground, current_character := 64 } : pcbChar)
        ∈ t.pcboard_buffer) ∧
    (pcboardScan (bufferOf [64, 80, 79, 83, 58, 53, 64, 65]) 8).map
        (fun s => s.pcboard_buffer) =
      some [{ column := 4, row := 0, background := 0, foreground := 7,
              current_character := 64 },
            { column := 5, row := 0, background := 0, foreground := 7,
              current_character := 65 }] ∧
    (pcboardScan (bufferOf [64, 80, 79, 83, 58, 56, 48, 64, 65]) 9).map
        (fun s => s.pcboard_buffer) =
      some [{ column := 79, row := 0, background := 0, foreground := 7,
              current_character := 64 },
            { column := 0, row := 1, background := 0, foreground := 7,
              current_character := 65 }] :=
  ⟨by decide, by decide, by decide, ⟨by decide, by decide⟩, by decide, by decide,
   (closing_at_sign_is_rendered (bufferOf [64, 80, 79, 83, 58, 53, 64, 65]) 0 5 6
      (by decide) (by decide) (by decide) (by decide) (by decide)
      (Or.inl ⟨by decide, by decide, rfl⟩) ⟨by decide, by decide⟩
      (by decide) (by decide) (by decide)).2.2 8 (by decide) (by decide),
   by decide, by decide⟩

/-- A pass over a lone LF from the state reached after `m` LF bytes. -/
theorem body_lineFeedState (buf : Nat → Nat) (m : Nat) (h : readByte buf m = 10) :
    body buf (lineFeedState m) = (lineFeedState (m + 1), false) := by
  have h' : readByte buf (lineFeedState m).loop = 10 := h
  rw [body_eq, if_neg (by rw [h']; decide),
    pcbSequence_control buf _ _ _ (Or.inr (Or.inl h'))]
  simp [controlChars, overflowCheck, lineFeedState, h]

theorem run_lineFeeds (buf : Nat → Nat) (N m : Nat) (hm : m ≤ N) :
    ∀ (d k fuel : Nat), k + d = m → (∀ i, k ≤ i → i < m → readByte buf i = 10) →
      run buf N (fuel + d) (lineFeedState k) = run buf N fuel (lineFeedState m) := by
  intro d
  induction d with
  | zero =>
    intro k fuel hk _
    have : k = m := by omega
    subst this
    rfl
  | succ d ih =>
    intro k fuel hk hp
    have hlt : (lineFeedState k).loop < N := by
      show k < N
      omega
    rw [← Nat.add_assoc, run_pass buf N (fuel + d) _ _ hlt
      (body_lineFeedState buf k (hp k (Nat.le_refl k) (by omega)))]
    exact ih (k + 1) fuel (by omega) (fun i h1 h2 => hp i (by omega) h2)

/-- The scan of `m` LF bytes followed by one plain byte: a single record at column 0 of
row `m`, and `rowMax = m`. -/
theorem scan_lineFeeds_then_plain (buf : Nat → Nat) (m : Nat)
    (hlf : ∀ i, i < m → readByte buf i = 10) (hpl : plainByte (readByte buf m)) :
    pcboardScan buf (m + 1) =
      some { loop := m + 1, column := 1, row := (m : Int), columnMax := 0,
             rowMax := (m : Int), background := 0, foreground := 7,
             pcboard_buffer := [{ column := 0, row := (m : Int), background := 0,
                                  foreground := 7, current_character := readByte buf m }] } := by
  have h := run_lineFeeds buf (m + 1) m (by omega) m 0 1 (by omega) (fun i _ hi => hlf i hi)
  have h0 : lineFeedState 0 = initialState := rfl
  rw [h0, Nat.add_comm 1 m] at h
  have hov : overflowCheck (lineFeedState m) = lineFeedState m := by
    unfold overflowCheck
    rw [if_neg (by simp [lineFeedState])]
  have hstep : body buf (lineFeedState m) =
      ({ loop := m + 1, column := 1, row := (m : Int), columnMax := 0,
         rowMax := (m : Int), background := 0, foreground := 7,
         pcboard_buffer := [{ column := 0, row := (m : Int), background := 0,
                              foreground := 7, current_character := readByte buf m }] },
        false) := by
    rw [body_printable buf (lineFeedState m) hpl, hov]
    simp [lineFeedState]
  unfold pcboardScan
  rw [h, run_pass buf (m + 1) 0 _ _ (by show m < m + 1; omega) hstep]
  exact run_exit _ _ _ _ (by simp)

/-- C12 (the claim as written fails). On `2^27` LF bytes followed by `A`, with
`bits = 8` and a font 16 lines high, the scan leaves `rowMax = 2^27`; the product
`(rowMax + 1) * 16 = 2147483664` does not fit the `int32_t` of line 147 and the canvas
is created with height `-2147483632`. -/
theorem canvas_height_overflow_counterexample :
    (pcboardScan (lineFeedsThen 134217728 65) 134217729).map (fun s => s.rowMax) =
      some 134217728 ∧
    canvasSize (lineFeedsThen 134217728 65) 134217729 8 16 = some (640, -2147483632) ∧
    ((134217728 : Int) + 1) * 16 = 2147483664 := by
  have hlf : ∀ i, i < 134217728 → readByte (lineFeedsThen 134217728 65) i = 10 := by
    intro i hi
    simp [readByte, lineFeedsThen, hi]
  have hpl : plainByte (readByte (lineFeedsThen 134217728 65) 134217728) := by
    simp [readByte, lineFeedsThen, plainByte]
  have h := scan_lineFeeds_then_plain (lineFeedsThen 134217728 65) 134217728 hlf hpl
  refine ⟨by rw [h]; rfl, ?_, by norm_num⟩
  simp only [canvasSize, h, Option.map_some', wrap32]
  norm_num

/-- C12 (amended). Canvas dimensions: for every input and `bits` 8 or 9 the loop is left
in a state with `rowMax >= 0` and the canvas is created `80 * bits` wide, whatever the
input bytes and `columnMax`; when `rowMax + 1` and `(rowMax + 1) * fontHeight` lie in the
`int32_t` range, the canvas is created `(rowMax + 1) * fontHeight` high. -/
theorem canvas_dimensions (inputFileBuffer : Nat → Nat) (inputFileSize : Nat)
    (bits fontHeight : Int) (hbits : bits = 8 ∨ bits = 9) :
    ∃ s, pcboardScan inputFileBuffer inputFileSize = some s ∧ 0 ≤ s.rowMax ∧
      (s.rowMax + 1 < 2147483648 → -2147483648 ≤ (s.rowMax + 1) * fontHeight →
        (s.rowMax + 1) * fontHeight < 2147483648 →
        canvasSize inputFileBuffer inputFileSize bits fontHeight =
          some (80 * bits, (s.rowMax + 1) * fontHeight)) ∧
      ∀ (inputFileBuffer' : Nat → Nat) (inputFileSize' : Nat),
        (canvasSize inputFileBuffer' inputFileSize' bits fontHeight).map Prod.fst =
          some (80 * bits) := by
  have hw : wrap32 (80 * bits) = 80 * bits := by
    rcases hbits with h | h <;> subst h <;> decide
  obtain ⟨s, hs, _, h3, _, _, _, _⟩ := clearMark_final inputFileBuffer inputFileSize
  obtain ⟨r0, _, _⟩ := extentOf_spec (fun r => r.row)
    (s.pcboard_buffer.drop (pcboardClearMark inputFileBuffer inputFileSize))
  rw [← h3] at r0
  refine ⟨s, hs, r0, ?_, ?_⟩
  · intro hr31 hlo hhi
    simp only [canvasSize, hs, Option.map_some']
    rw [hw, wrap32_of_range (s.rowMax + 1) (by omega) hr31,
      wrap32_of_range ((s.rowMax + 1) * fontHeight) hlo hhi]
  · intro buf' N'
    obtain ⟨s', hs'⟩ := pcboardScan_total buf' N'
    simp only [canvasSize, hs', Option.map_some']
    rw [hw]

/-- Instance of C12 (amended): `A`, LF, `B` with `bits = 8` and a font 16 lines high
gives a canvas of 640 by 32. -/
theorem canvas_dimensions_witness :
    ((8 : Int) = 8 ∨ (8 : Int) = 9) ∧
    canvasSize (bufferOf [65, 10, 66]) 3 8 16 = some (640, 32) ∧
    ∃ s, pcboardScan (bufferOf [65, 10, 66]) 3 = some s ∧ 0 ≤ s.rowMax ∧
      (s.rowMax + 1 < 2147483648 → -2147483648 ≤ (s.rowMax + 1) * 16 →
        (s.rowMax + 1) * 16 < 2147483648 →
        canvasSize (bufferOf [65, 10, 66]) 3 8 16 = some (80 * 8, (s.rowMax + 1) * 16)) ∧
      ∀ (inputFileBuffer' : Nat → Nat) (inputFileSize' : Nat),
        (canvasSize inputFileBuffer' inputFileSize' 8 16).map Prod.fst = some (80 * 8) :=
  ⟨Or.inl rfl, by decide, canvas_dimensions (bufferOf [65, 10, 66]) 3 8 16 (Or.inl rfl)⟩

end PCBoard
